import Mathlib

/-!
Verification of the ontocast knowledge-graph pipeline core: the RDF triple
data model, the ontology/facts sublimator, the retry-bounded workflow state
machine, the connectivity validator/repairer, and the record-linkage and
aggregation engine.  Definitions are shallow embeddings of the Python
sources (src/ontocast and src/aot_cast); rdflib graphs are modelled as
duplicate-free insertion-ordered triple lists with namespace bindings.
-/

namespace Ontocast

/-- An RDF term: an identifier (IRI, `rdflib.URIRef`) or a literal value
(`rdflib.Literal`, kept as its string form). -/
inductive Term where
  | iri : String → Term
  | lit : String → Term
deriving DecidableEq, Repr

/-- `isinstance(t, URIRef)` in the source. -/
def Term.isIRI : Term → Bool
  | .iri _ => true
  | .lit _ => false

/-- `str(t)` / SPARQL `STR(t)`. -/
def Term.str : Term → String
  | .iri s => s
  | .lit s => s

/-- An RDF statement `(subject, predicate, object)`. -/
abbrev Triple := Term × Term × Term

/-- Embedding of `rdflib.Graph` (the `RDFGraph` subclass of `onto.py`):
a set of triples, modelled as an insertion-ordered list without duplicates,
plus the namespace bindings registered with `bind`. -/
structure RDFGraph where
  triples : List Triple
  bindings : List (String × String)
deriving DecidableEq, Repr

/-- The empty graph `RDFGraph()`. -/
def RDFGraph.empty : RDFGraph := { triples := [], bindings := [] }

/-- `graph.add(t)`: set insertion (a duplicate is a no-op). -/
def RDFGraph.add (g : RDFGraph) (t : Triple) : RDFGraph :=
  if t ∈ g.triples then g else { g with triples := g.triples ++ [t] }

/-- `graph.bind(p, ns)`. -/
def RDFGraph.bindNS (g : RDFGraph) (p ns : String) : RDFGraph :=
  { g with bindings := g.bindings ++ [(p, ns)] }

/-- `len(graph)`: the number of statements. -/
def RDFGraph.size (g : RDFGraph) : Nat := g.triples.length

/-- Add a list of triples one by one (`for t in l: graph.add(t)`). -/
def RDFGraph.addAll (g : RDFGraph) (l : List Triple) : RDFGraph :=
  l.foldl RDFGraph.add g

/-- Common vocabulary IRIs used by the source. -/
def rdfType : Term := .iri "http://www.w3.org/1999/02/22-rdf-syntax-ns#type"

def rdfProperty : Term := .iri "http://www.w3.org/1999/02/22-rdf-syntax-ns#Property"

def rdfsLabel : Term := .iri "http://www.w3.org/2000/01/rdf-schema#label"

def rdfsComment : Term := .iri "http://www.w3.org/2000/01/rdf-schema#comment"

def rdfsDomain : Term := .iri "http://www.w3.org/2000/01/rdf-schema#domain"

def rdfsRange : Term := .iri "http://www.w3.org/2000/01/rdf-schema#range"

def provEntity : Term := .iri "http://www.w3.org/ns/prov#Entity"

def provWasPartOf : Term := .iri "http://www.w3.org/ns/prov#wasPartOf"

def provWasGeneratedBy : Term := .iri "http://www.w3.org/ns/prov#wasGeneratedBy"

def provWasQuotedFrom : Term := .iri "http://www.w3.org/ns/prov#wasQuotedFrom"

def schemaHasPart : Term := .iri "http://schema.org/hasPart"

/-! ## Ontology/facts sublimator (`aot_cast/agent/sublimate_ontology.py`)

`_sublimate_ontology` runs two complementary SPARQL filters over the facts
graph: a statement goes to the facts partition iff its subject, its
predicate, or (when an IRI) its object starts with the chunk namespace
`cd:`; the ontology-addendum partition takes the complement. -/

/-- Whether `pat` is a prefix of `l` (char-list model of Python
`str.startswith` / SPARQL `STRSTARTS`). -/
def charsBeginWith : List Char → List Char → Bool
  | [], _ => true
  | _ :: _, [] => false
  | x :: xs, y :: ys => x = y && charsBeginWith xs ys

/-- `s.startswith(pat)`. -/
def strStartsWith (s pat : String) : Bool := charsBeginWith pat.data s.data

/-- The SPARQL filter body shared by the two queries:
`STRSTARTS(STR(?s), cd) || STRSTARTS(STR(?p), cd) ||
 (isIRI(?o) && STRSTARTS(STR(?o), cd))`. -/
def sublimateCond (ns : String) (t : Triple) : Bool :=
  strStartsWith t.1.str ns || strStartsWith t.2.1.str ns ||
    (t.2.2.isIRI && strStartsWith t.2.2.str ns)

/-- The ontology-addendum partition (`graph_onto_addendum`): the triples
whose filter is negated, inserted into a fresh graph. -/
def ontologyPart (g : RDFGraph) (ns : String) : RDFGraph :=
  RDFGraph.empty.addAll (g.triples.filter (fun t => !(sublimateCond ns t)))

/-- The facts partition (`graph_facts_pure`): the triples satisfying the
filter, inserted into a fresh graph. -/
def factsPart (g : RDFGraph) (ns : String) : RDFGraph :=
  RDFGraph.empty.addAll (g.triples.filter (fun t => sublimateCond ns t))

/-! ## Workflow engine state (`aot_cast/onto.py`, `ontocast/util.py`,
`ontocast/stategraph.py`, `ontocast/agent/check_chunks.py`)

`AgentState` carries the run status, failure record, per-stage visit
counters (a `defaultdict(int)`, modelled as a total function) and the
retry budget `max_visits`. -/

/-- `Status` (`StrEnum` in `onto.py`). -/
inductive Status where
  | success
  | failed
  | countsExceeded
deriving DecidableEq, Repr

/-- `WorkflowNode` (`StrEnum` in `onto.py`; the ontocast variant has an
aggregation node where aot_cast has `SAVE_KG`). -/
inductive WorkflowNode where
  | CONVERT_TO_MD
  | CHUNK
  | SELECT_ONTOLOGY
  | TEXT_TO_ONTOLOGY
  | TEXT_TO_FACTS
  | SUBLIMATE_ONTOLOGY
  | CRITICISE_ONTOLOGY
  | CRITICISE_FACTS
  | CHUNKS_EMPTY
  | AGGREGATE_FACTS
deriving DecidableEq, Repr

/-- The string value of each `WorkflowNode` member. -/
def WorkflowNode.val : WorkflowNode → String
  | .CONVERT_TO_MD => "Convert to Markdown"
  | .CHUNK => "Chunk Text"
  | .SELECT_ONTOLOGY => "Select Ontology"
  | .TEXT_TO_ONTOLOGY => "Text to Ontology"
  | .TEXT_TO_FACTS => "Text to Facts"
  | .SUBLIMATE_ONTOLOGY => "Sublimate Ontology"
  | .CRITICISE_ONTOLOGY => "Criticise Ontology"
  | .CRITICISE_FACTS => "Criticise Facts"
  | .CHUNKS_EMPTY => "Chunks Empty Check"
  | .AGGREGATE_FACTS => "Aggregate Facts"

/-- `Chunk` (`onto.py`): a text span with a content-hash id, the parent
document IRI, its own graph and a processed flag. -/
structure Chunk where
  text : String
  hid : String
  docIri : String
  graph : RDFGraph
  processed : Bool
deriving DecidableEq, Repr

/-- `Chunk.iri` property. -/
def Chunk.iri (c : Chunk) : String := c.docIri ++ "/chunk/" ++ c.hid

/-- `Chunk.namespace` property (`iri2namespace(iri, ontology=False)`). -/
def Chunk.chunkNamespace (c : Chunk) : String := c.iri ++ "/"

/-- The fields of `AgentState` touched by the retry machinery and the
chunk queue check. -/
structure AgentState where
  chunks : List Chunk
  currentChunk : Option Chunk
  failureStage : Option String
  failureReason : Option String
  successScore : ℚ
  status : Status
  nodeVisits : WorkflowNode → Nat
  maxVisits : Nat

/-- `AgentState.set_failure`. -/
def AgentState.setFailure (s : AgentState) (stage reason : String) (score : ℚ) :
    AgentState :=
  { s with failureStage := some stage, failureReason := some reason,
           successScore := score, status := Status.failed }

/-- `AgentState.clear_failure`. -/
def AgentState.clearFailure (s : AgentState) : AgentState :=
  { s with failureStage := none, failureReason := none, successScore := 0,
           status := Status.success }

/-- `state.node_visits[current_node] += 1` on the defaultdict. -/
def bumpVisit (v : WorkflowNode → Nat) (node : WorkflowNode) :
    WorkflowNode → Nat :=
  fun n => if n = node then v n + 1 else v n

/-- `count_visits_conditional_success` (`ontocast/util.py`): increment this
stage's visit counter; on success clear the failure record; on failure with
the budget exhausted record the stage with reason "Maximum visits exceeded"
and force the status to success. -/
def countVisitsConditionalSuccess (s0 : AgentState) (node : WorkflowNode) :
    AgentState :=
  let s : AgentState := { s0 with nodeVisits := bumpVisit s0.nodeVisits node }
  if s.status = Status.success then s.clearFailure
  else if s.maxVisits ≤ s.nodeVisits node then
    { s.setFailure node.val "Maximum visits exceeded" 0 with
        status := Status.success }
  else s

/-- One observable stage execution: the wrapped node body followed by the
visit-counting post hook (`wrap_with` in `ontocast/util.py`). -/
def runStage (body : AgentState → AgentState) (node : WorkflowNode)
    (s : AgentState) : AgentState :=
  countVisitsConditionalSuccess (body s) node

/-- The retry loop induced by the conditional edges of
`add_conditional_with_visit_counter_logic`: after each execution, status
success routes to the designated next node, status failed routes back into
the same stage.  Returns the state at the time the engine leaves the stage
together with the number of executions of the stage.  `fuel` bounds the
recursion of the model; the theorems instantiate it above the retry
budget. -/
def retryLoop (body : AgentState → AgentState) (node : WorkflowNode) :
    Nat → AgentState → AgentState × Nat
  | 0, s => (s, 0)
  | fuel + 1, s =>
      let s1 := runStage body node s
      if s1.status = Status.success then (s1, 1)
      else
        let r := retryLoop body node fuel s1
        (r.1, r.2 + 1)

/-- A stage body that always reports content failure: it records a failure
(its own stage label and reason) and leaves the visit counters and the
budget untouched. -/
def AlwaysFails (body : AgentState → AgentState) (reason : String) : Prop :=
  ∀ s : AgentState, (body s).status = Status.failed ∧
    (body s).failureReason = some reason ∧
    (body s).nodeVisits = s.nodeVisits ∧
    (body s).maxVisits = s.maxVisits

/-- A concrete always-failing stage body used by the closed witnesses. -/
def demoFailBody : AgentState → AgentState :=
  fun s => s.setFailure WorkflowNode.TEXT_TO_FACTS.val "content rejected" 0

/-- A concrete start state (fresh counters, budget 3). -/
def demoState : AgentState :=
  { chunks := [], currentChunk := none, failureStage := none,
    failureReason := none, successScore := 0, status := Status.success,
    nodeVisits := fun _ => 0, maxVisits := 3 }

/-! ## Chunk queue check (`ontocast/agent/check_chunks.py`) -/

/-- `check_chunks_empty`: pop the first remaining chunk (resetting all
visit counters and setting status to FAILED as a routing signal), or, when
no chunk remains, clear the current chunk and set status to SUCCESS. -/
def checkChunksEmpty (s : AgentState) : AgentState :=
  match s.chunks with
  | c :: rest =>
      { s with chunks := rest, currentChunk := some c,
               nodeVisits := fun _ => 0, status := Status.failed }
  | [] => { s with currentChunk := none, status := Status.success }

/-- The conditional-edge mapping attached to the chunks-empty node in
`create_agent_graph`: SUCCESS routes to aggregation, FAILED re-enters the
per-chunk sub-pipeline at ontology selection. -/
def chunksEmptyRoute : Status → Option WorkflowNode
  | Status.success => some WorkflowNode.AGGREGATE_FACTS
  | Status.failed => some WorkflowNode.SELECT_ONTOLOGY
  | Status.countsExceeded => none

/-- A one-chunk demo state for the C10 witness. -/
def demoChunk : Chunk :=
  { text := "t", hid := "h1", docIri := "https://example.com/doc/d",
    graph := RDFGraph.empty, processed := false }

/-! ## Record-linkage engine (`ontocast/tool/aggregate.py`)

`EntityDisambiguator` groups near-duplicate entities and predicates with a
greedy seed-based single pass over `rapidfuzz.fuzz.ratio` similarity, then
synthesizes canonical IRIs in the destination document namespace. -/

/-- Longest common subsequence length, structurally recursive on a fuel
bounded by the total length (so the kernel can evaluate it). -/
def lcsLenAux : Nat → List Char → List Char → Nat
  | 0, _, _ => 0
  | _ + 1, [], _ => 0
  | _ + 1, _ :: _, [] => 0
  | f + 1, x :: xs, y :: ys =>
      if x = y then lcsLenAux f xs ys + 1
      else max (lcsLenAux f (x :: xs) ys) (lcsLenAux f xs (y :: ys))

/-- Longest common subsequence length of two character lists. -/
def lcsLen (a b : List Char) : Nat := lcsLenAux (a.length + b.length) a b

/-- `rapidfuzz.fuzz.ratio`: the normalized indel similarity in [0, 100].
The indel distance is `|a| + |b| - 2·lcs(a, b)`, so the ratio is
`100·2·lcs/(|a| + |b|)` (100 for two empty strings). -/
def fuzzRatio (a b : String) : ℚ :=
  if a.length + b.length = 0 then 100
  else mkRat (200 * lcsLen a.data b.data) (a.length + b.length)

/-- Python `str.lower()` (ASCII suffices for the inputs in scope). -/
def strLower (a : String) : String := String.mk (a.data.map Char.toLower)

/-- The segment of `l` after its last occurrence of `c` (all of `l` when
`c` does not occur): `l.split(c)[-1]`. -/
def charsAfterLast (c : Char) (l : List Char) : List Char :=
  l.foldl (fun acc x => if x = c then [] else acc ++ [x]) []

/-- Python `str.replace(pat, rep)`: replace every non-overlapping
occurrence left to right (fuel-bounded structural recursion; the fuel
`|l|` suffices for the non-empty patterns in scope). -/
def replaceCharsAux : Nat → List Char → List Char → List Char → List Char
  | 0, l, _, _ => l
  | _ + 1, [], _, _ => []
  | f + 1, x :: xs, pat, rep =>
      if charsBeginWith pat (x :: xs) then
        rep ++ replaceCharsAux f ((x :: xs).drop pat.length) pat rep
      else x :: replaceCharsAux f xs pat rep

/-- `s.replace(pat, rep)`. -/
def strReplace (s pat rep : String) : String :=
  String.mk (replaceCharsAux s.data.length s.data pat.data rep.data)

/-- Python truthiness of an optional string (`None` and `""` are falsy). -/
def optTruthy : Option String → Bool
  | none => false
  | some s => s ≠ ""

/-- Python truthiness of an optional RDF term (an empty IRI/literal is
falsy, like `URIRef("")`). -/
def termTruthy : Option Term → Bool
  | none => false
  | some t => t.str ≠ ""

/-- `EntityDisambiguator.get_local_name`:
`uri_str.split("/")[-1].split("#")[-1]`. -/
def getLocalName (s : String) : String :=
  String.mk (charsAfterLast '#' (charsAfterLast '/' s.data))

/-- `EntityDisambiguator.normalize_uri`: expand the first namespace
abbreviation whose `prefix:` heads the string (replacing every occurrence,
as `str.replace` does), and return the full URI with its local name. -/
def normalizeUri (uri : String) : List (String × String) → String × String
  | [] => (uri, getLocalName uri)
  | (p, ns) :: rest =>
      if strStartsWith uri (p ++ ":") then
        let full := strReplace uri (p ++ ":") ns
        (full, getLocalName full)
      else normalizeUri uri rest

/-- The per-entity record of `extract_entity_labels`. -/
structure EntityInfo where
  label : String
  localName : String
deriving DecidableEq, Repr

/-- The per-predicate record of `extract_predicate_info`. -/
structure PredInfo where
  label : Option String
  comment : Option String
  domain : Option Term
  rangeV : Option Term
  isExplicitProperty : Bool
  localName : String
deriving DecidableEq, Repr

/-- Python dict: `m[k] = v` only when `k not in m` (insertion keeps
first-seen order). -/
def insertIfAbsent {β : Type} (m : List (Term × β)) (k : Term) (v : β) :
    List (Term × β) :=
  if m.any (fun kv => kv.1 = k) then m else m ++ [(k, v)]

/-- Python dict assignment `m[k] = v`: overwrite in place or append. -/
def dictSet {β : Type} : List (Term × β) → Term → β → List (Term × β)
  | [], k, v => [(k, v)]
  | (k0, v0) :: rest, k, v =>
      if k0 = k then (k0, v) :: rest else (k0, v0) :: dictSet rest k v

/-- Python dict `m.get(k, d)`. -/
def dictGetD {β : Type} (m : List (Term × β)) (k : Term) (d : β) : β :=
  match m.find? (fun kv => kv.1 = k) with
  | some kv => kv.2
  | none => d

/-- Lookup returning an option. -/
def dictFind {β : Type} (m : List (Term × β)) (k : Term) : Option β :=
  (m.find? (fun kv => kv.1 = k)).map Prod.snd

/-- In-place update of an existing key (`if k in m: m[k] = f(m[k])`). -/
def dictModify {β : Type} : List (Term × β) → Term → (β → β) → List (Term × β)
  | [], _, _ => []
  | (k0, v0) :: rest, k, f =>
      if k0 = k then (k0, f v0) :: rest else (k0, v0) :: dictModify rest k f

/-- Python `dict.update`. -/
def dictUpdate {β : Type} (m adds : List (Term × β)) : List (Term × β) :=
  adds.foldl (fun acc kv => dictSet acc kv.1 kv.2) m

/-- `EntityDisambiguator.extract_entity_labels`: label every subject,
preferring a label/comment literal, falling back to the local name; keys
are normalized subject URIs, first occurrence wins. -/
def extractEntityLabels (g : RDFGraph) : List (Term × EntityInfo) :=
  g.triples.foldl (fun m t =>
    if (t.2.1 = rdfsLabel ∨ t.2.1 = rdfsComment) ∧ t.2.2.isIRI = false then
      let fl := normalizeUri t.1.str g.bindings
      insertIfAbsent m (.iri fl.1) { label := t.2.2.str, localName := fl.2 }
    else if t.1.isIRI then
      let fl := normalizeUri t.1.str g.bindings
      insertIfAbsent m (.iri fl.1) { label := fl.2, localName := fl.2 }
    else m) []

/-- `EntityDisambiguator.extract_predicate_info`.  First pass: one blank
record per normalized predicate in use.  Second pass (kept faithful to the
source, which attaches each metadata triple to the entry of the metadata
triple's own normalized predicate): `rdf:type rdf:Property` marks
`rdf:type`'s entry explicit, label/comment literals are stored on the
entries of `rdfs:label`/`rdfs:comment`, and domain/range objects on the
entries of `rdfs:domain`/`rdfs:range`.  Finally every falsy label is
replaced by the local name. -/
def extractPredicateInfo (g : RDFGraph) : List (Term × PredInfo) :=
  let m0 : List (Term × PredInfo) := g.triples.foldl (fun m t =>
    if t.2.1.isIRI then
      let fl := normalizeUri t.2.1.str g.bindings
      insertIfAbsent m (.iri fl.1)
        { label := none, comment := none, domain := none, rangeV := none,
          isExplicitProperty := false, localName := fl.2 }
    else m) []
  let m1 : List (Term × PredInfo) := g.triples.foldl (fun m t =>
    if t.2.1.isIRI then
      let np : Term := .iri (normalizeUri t.2.1.str g.bindings).1
      if t.2.1 = rdfType ∧ t.2.2 = rdfProperty then
        dictModify m np (fun i => { i with isExplicitProperty := true })
      else if (t.2.1 = rdfsLabel ∨ t.2.1 = rdfsComment) ∧ t.2.2.isIRI = false then
        if t.2.1 = rdfsLabel then
          dictModify m np (fun i => { i with label := some t.2.2.str })
        else dictModify m np (fun i => { i with comment := some t.2.2.str })
      else if t.2.1 = rdfsDomain then
        dictModify m np (fun i => { i with domain := some t.2.2 })
      else if t.2.1 = rdfsRange then
        dictModify m np (fun i => { i with rangeV := some t.2.2 })
      else m
    else m) m0
  m1.map (fun kv =>
    if optTruthy kv.2.label then kv
    else (kv.1, { kv.2 with label := some kv.2.localName }))

/-- The entity similarity test of `find_similar_entities`: exact local-name
match, or label similarity at or above the threshold. -/
def matchEntity (th : ℚ) (i1 i2 : EntityInfo) : Bool :=
  i1.localName = i2.localName ||
    th ≤ fuzzRatio (strLower i1.label) (strLower i2.label)

/-- `info1["domain"] == info2["domain"] or not (info1["domain"] and
info2["domain"])` — note Python truthiness: one-sided declarations are
compatible. -/
def domainCompatible (i1 i2 : PredInfo) : Bool :=
  i1.domain = i2.domain || !(termTruthy i1.domain && termTruthy i2.domain)

/-- Range analogue of `domainCompatible`. -/
def rangeCompatible (i1 i2 : PredInfo) : Bool :=
  i1.rangeV = i2.rangeV || !(termTruthy i1.rangeV && termTruthy i2.rangeV)

/-- The predicate similarity test of `find_similar_predicates`: both labels
truthy, label similarity at or above the threshold, and domain/range
compatibility. -/
def matchPredicate (th : ℚ) (i1 i2 : PredInfo) : Bool :=
  optTruthy i1.label && optTruthy i2.label &&
    (th ≤ fuzzRatio (strLower (i1.label.getD "")) (strLower (i2.label.getD ""))) &&
    domainCompatible i1 i2 && rangeCompatible i1 i2

/-- The inner scan of the greedy clustering: absorb every not-yet-processed
later entry matching the group seed, in order, marking each absorbed entry
processed.  Returns the absorbed entries and the grown processed set. -/
def innerScan {β : Type} (f : β → Bool) :
    List (Term × β) → List Term → List Term × List Term
  | [], proc => ([], proc)
  | (e2, i2) :: rest, proc =>
      if e2 ∈ proc then innerScan f rest proc
      else if f i2 then
        let r := innerScan f rest (proc ++ [e2])
        (e2 :: r.1, r.2)
      else innerScan f rest proc

/-- The outer loop of the greedy clustering: each unprocessed entry seeds a
group and absorbs later entries matching it; only groups of size at least
2 are emitted. -/
def greedyGroups {β : Type} (matchF : β → β → Bool) :
    List (Term × β) → List Term → List (List Term)
  | [], _ => []
  | (e1, i1) :: rest, proc =>
      if e1 ∈ proc then greedyGroups matchF rest proc
      else
        let r := innerScan (matchF i1) rest (proc ++ [e1])
        if 1 < (e1 :: r.1).length then
          (e1 :: r.1) :: greedyGroups matchF rest r.2
        else greedyGroups matchF rest r.2

/-- `EntityDisambiguator.find_similar_entities`. -/
def findSimilarEntities (th : ℚ) (entities : List (Term × EntityInfo)) :
    List (List Term) :=
  greedyGroups (matchEntity th) entities []

/-- `EntityDisambiguator.find_similar_predicates`. -/
def findSimilarPredicates (th : ℚ) (preds : List (Term × PredInfo)) :
    List (List Term) :=
  greedyGroups (matchPredicate th) preds []

/-- A placeholder term for total head access (groups are never empty). -/
def dummyTerm : Term := .iri ""

/-- `EntityDisambiguator.create_canonical_iri` (ontocast variant): the
document namespace followed by the first group member's local name. -/
def createCanonicalIri (group : List Term) (docNs : String) : Term :=
  .iri (docNs ++ getLocalName (group.headD dummyTerm).str)

/-- Count of non-`None` values of a predicate record (the boolean flag and
the local-name string are never `None`). -/
def infoScore (i : PredInfo) : Nat :=
  (if i.label.isSome then 1 else 0) + (if i.comment.isSome then 1 else 0) +
    (if i.domain.isSome then 1 else 0) + (if i.rangeV.isSome then 1 else 0) + 2

/-- Python `max(xs, key=f)`: the first element attaining the maximum. -/
def pyMaxBy {α : Type} (f : α → Nat) : List α → Option α
  | [] => none
  | x :: xs => some (xs.foldl (fun b y => if f b < f y then y else b) x)

/-- `EntityDisambiguator.create_canonical_predicate`: pick the member with
the most populated metadata fields and mint its local name inside the
document namespace. -/
def createCanonicalPredicate (group : List Term) (docNs : String)
    (info : List (Term × PredInfo)) : Term :=
  let score := fun p => match dictFind info p with
    | some i => infoScore i
    | none => 0
  let best := (pyMaxBy score group).getD dummyTerm
  .iri (docNs ++ (match dictFind info best with
    | some i => i.localName
    | none => ""))

/-- The entity-mapping loop of `aggregate_graphs`: every member of every
group maps to the group's canonical IRI. -/
def buildEntityMapping (groups : List (List Term)) (docNs : String) :
    List (Term × Term) :=
  groups.foldl (fun m g =>
    g.foldl (fun m e => dictSet m e (createCanonicalIri g docNs)) m) []

/-- The predicate-mapping loop of `aggregate_graphs`. -/
def buildPredicateMapping (groups : List (List Term)) (docNs : String)
    (info : List (Term × PredInfo)) : List (Term × Term) :=
  groups.foldl (fun m g =>
    g.foldl (fun m e => dictSet m e (createCanonicalPredicate g docNs info)) m) []

/-! ## Aggregator (`ChunkRDFGraphAggregator.aggregate_graphs`) -/

/-- The predicate-info merge of the first pass: keep existing non-`None`
values, fill `None` fields from the new chunk, and accumulate the explicit
flag. -/
def mergePredInfo (old new : PredInfo) : PredInfo :=
  { label := match old.label with
      | none => new.label
      | some v => some v,
    comment := match old.comment with
      | none => new.comment
      | some v => some v,
    domain := match old.domain with
      | none => new.domain
      | some v => some v,
    rangeV := match old.rangeV with
      | none => new.rangeV
      | some v => some v,
    isExplicitProperty := old.isExplicitProperty || new.isExplicitProperty,
    localName := old.localName }

/-- Fold a chunk's predicate records into the cross-chunk table. -/
def dictMergePred : List (Term × PredInfo) → Term → PredInfo →
    List (Term × PredInfo)
  | [], k, v => [(k, v)]
  | (k0, v0) :: rest, k, v =>
      if k0 = k then (k0, mergePredInfo v0 v) :: rest
      else (k0, v0) :: dictMergePred rest k v

/-- First pass of `aggregate_graphs`: the entity labels of all chunks
(`dict.update` per chunk). -/
def collectEntityLabels (chunks : List Chunk) : List (Term × EntityInfo) :=
  chunks.foldl (fun acc c => dictUpdate acc (extractEntityLabels c.graph)) []

/-- First pass of `aggregate_graphs`: the merged predicate records of all
chunks. -/
def collectPredicateInfo (chunks : List Chunk) : List (Term × PredInfo) :=
  chunks.foldl (fun acc c =>
    (extractPredicateInfo c.graph).foldl
      (fun a kv => dictMergePred a kv.1 kv.2) acc) []

/-- The triples contributed by one chunk in the output loop of
`aggregate_graphs`, in insertion order: the two chunk provenance triples,
then each rewritten statement followed (for IRI subjects) by its
"generated-by" provenance link. -/
def chunkTriples (em pm : List (Term × Term)) (docNs : String) (c : Chunk) :
    List Triple :=
  let ci : Term := .iri c.iri
  (ci, rdfType, provEntity) :: (ci, provWasPartOf, .iri docNs) ::
    c.graph.triples.flatMap (fun t =>
      let ns := dictGetD em t.1 t.1
      let np := dictGetD pm t.2.1 t.2.1
      let no := if t.2.2.isIRI then dictGetD em t.2.2 t.2.2 else t.2.2
      (ns, np, no) ::
        (if ns.isIRI then [(ns, provWasGeneratedBy, ci)] else []))

/-- The output loop of `aggregate_graphs`: emit every chunk's contribution
into the accumulating graph. -/
def aggregateCore (em pm : List (Term × Term)) (docNs : String)
    (g0 : RDFGraph) (chunks : List Chunk) : RDFGraph :=
  chunks.foldl (fun g c => g.addAll (chunkTriples em pm docNs c)) g0

/-- `ChunkRDFGraphAggregator.aggregate_graphs` (threshold 85): collect
labels and predicate records, form the greedy groups, build both canonical
mappings, then emit provenance and rewritten statements per chunk into one
output graph. -/
def aggregateGraphs (chunks : List Chunk) (docNs : String) : RDFGraph :=
  let g0 := (RDFGraph.empty.bindNS "prov" "http://www.w3.org/ns/prov#").bindNS
    "cd" docNs
  let allEnt := collectEntityLabels chunks
  let allPred := collectPredicateInfo chunks
  let em := buildEntityMapping (findSimilarEntities 85 allEnt) docNs
  let pm := buildPredicateMapping (findSimilarPredicates 85 allPred) docNs
    allPred
  aggregateCore em pm docNs g0 chunks

/-- A minimal one-triple chunk for the C1 counterexample. -/
def demoC1Chunk : Chunk :=
  { text := "t", hid := "c1", docIri := "https://example.com/doc/d",
    graph := { triples := [(.iri "http://x/a", .iri "http://x/p", .lit "v")],
               bindings := [] },
    processed := false }

/-- The per-chunk provenance pairs, in order. -/
def provPairs (chunks : List Chunk) (docNs : String) : List Triple :=
  chunks.flatMap (fun c =>
    [(.iri c.iri, rdfType, provEntity), (.iri c.iri, provWasPartOf, .iri docNs)])

/-- Two small chunks for the C1 witness. -/
def demoC1ChunkB : Chunk :=
  { text := "t", hid := "c2", docIri := "https://example.com/doc/d",
    graph := { triples := [(.iri "http://x/a", .iri "http://x/p", .lit "w"),
                           (.iri "http://x/b", .iri "http://x/q", .lit "v")],
               bindings := [] },
    processed := false }

/-! ### Concrete disambiguation scenarios -/

/-- The demo document namespace. -/
def docNsDemo : String := "https://example.com/doc/d/"

def c5E1 : Term := .iri "http://b/y"

def c5E2 : Term := .iri "https://example.com/doc/d/x"

def c5E3 : Term := .iri "http://a/x"

def c5E4 : Term := .iri "http://c/x"

/-- A chunk graph whose labels put e1/e2 in one group (similar labels) and
e3/e4 in another (equal local names); the second group's canonical IRI
coincides with e2. -/
def demoC5Graph : RDFGraph :=
  { triples := [(c5E1, rdfsLabel, .lit "hh"), (c5E2, rdfsLabel, .lit "hh"),
                (c5E3, rdfsLabel, .lit "uu"), (c5E4, rdfsLabel, .lit "vv")],
    bindings := [] }

def demoC5Chunk : Chunk :=
  { text := "t", hid := "c5", docIri := "https://example.com/doc/d",
    graph := demoC5Graph, processed := false }

def c5P1 : Term := .iri "http://a/p"

def c5P2 : Term := .iri "http://b/x"

def c5P3 : Term := .iri "http://c/r"

def c5P4 : Term := .iri "http://d/x"

/-- Predicate records forming two groups whose best-scoring members share
the local name "x". -/
def c5PredInput : List (Term × PredInfo) :=
  [(c5P1, { label := some "qq", comment := none, domain := none,
            rangeV := none, isExplicitProperty := false, localName := "p" }),
   (c5P2, { label := some "qq", comment := some "c", domain := none,
            rangeV := none, isExplicitProperty := false, localName := "x" }),
   (c5P3, { label := some "zz", comment := none, domain := none,
            rangeV := none, isExplicitProperty := false, localName := "r" }),
   (c5P4, { label := some "zz", comment := some "c", domain := none,
            rangeV := none, isExplicitProperty := false, localName := "x" })]

/-! ### C6: predicate merge compatibility -/

def c6P1 : Term := .iri "http://a/p1"

def c6P2 : Term := .iri "http://b/p2"

def c6P3 : Term := .iri "http://c/p3"

def c6Info1 : PredInfo :=
  { label := some "pp", comment := none, domain := none, rangeV := none,
    isExplicitProperty := false, localName := "p1" }

def c6Info2 : PredInfo :=
  { label := some "pp", comment := none, domain := some (.iri "http://o/A"),
    rangeV := none, isExplicitProperty := false, localName := "p2" }

def c6Info3 : PredInfo :=
  { label := some "pp", comment := none, domain := some (.iri "http://o/B"),
    rangeV := none, isExplicitProperty := false, localName := "p3" }

def c6PredInput : List (Term × PredInfo) :=
  [(c6P1, c6Info1), (c6P2, c6Info2), (c6P3, c6Info3)]

/-! ### C8: canonical IRI synthesis -/

def c8E1 : Term := .iri "http://ex/aa/bbb"

def c8E2 : Term := .iri "http://e/c"

/-- Two similar-labelled entities whose first member is not the shortest. -/
def demoC8Graph : RDFGraph :=
  { triples := [(c8E1, rdfsLabel, .lit "hh"), (c8E2, rdfsLabel, .lit "hh")],
    bindings := [] }

def demoC8Chunk : Chunk :=
  { text := "t", hid := "c8", docIri := "https://example.com/doc/d",
    graph := demoC8Graph, processed := false }

/-- `create_canonical_iri` of the aot_cast variant
(`aot_cast/agent/aggregate.py`): the shortest member (by URI length, first
minimum wins, as Python `min`) provides the local name, minted under
`doc_iri + "/entity/"`. -/
def createCanonicalIriAot (group : List Term) (docIri : String) : Term :=
  let canonical : Term := match group with
    | [] => dummyTerm
    | x :: xs => xs.foldl (fun (b y : Term) =>
        if y.str.length < b.str.length then y else b) x
  .iri (docIri ++ "/entity/" ++ getLocalName canonical.str)

/-- The shortest member of a group by URI string length (Python
`min(group, key=len)`). -/
def shortestMember (group : List Term) : Term :=
  match group with
  | [] => dummyTerm
  | x :: xs => xs.foldl (fun (b y : Term) =>
      if y.str.length < b.str.length then y else b) x

/-! ## Connectivity validator (`aot_cast/agent/validate.py`,
`RDFGraphConnectivityValidator`) -/

/-- Python `set.add` on an insertion-ordered duplicate-free list, guarded
by a condition. -/
def addNew (cond : Prop) [Decidable cond] (acc : List Term) (e : Term) :
    List Term :=
  if cond ∧ e ∉ acc then acc ++ [e] else acc

/-- `get_all_entities`: every URIRef appearing as subject or object,
first-seen order (the Python set, modelled as an insertion-ordered
duplicate-free list). -/
def getAllEntities (g : RDFGraph) : List Term :=
  g.triples.foldl (fun acc t =>
    addNew (t.2.2.isIRI = true) (addNew (t.1.isIRI = true) acc t.1) t.2.2) []

/-- `build_adjacency_graph`, projected at one node: for every statement
whose subject and object are both IRIs, subject and object become mutual
neighbours. -/
def adjacency (g : RDFGraph) (e : Term) : List Term :=
  g.triples.foldl (fun acc t =>
    if t.1.isIRI ∧ t.2.2.isIRI then
      addNew (t.2.2 = e) (addNew (t.1 = e) acc t.2.2) t.1
    else acc) []

/-- The breadth-first search of `find_connected_components`: pop the queue
head; if unvisited, mark it visited, put it in the component, and enqueue
its unvisited neighbours.  Returns the grown visited set and the
component.  `fuel` bounds the model's recursion; the callers pass a bound
dominating the loop's decreasing measure. -/
def bfsAux (adj : Term → List Term) :
    Nat → List Term → List Term → List Term → List Term × List Term
  | 0, _, visited, comp => (visited, comp)
  | _ + 1, [], visited, comp => (visited, comp)
  | f + 1, cur :: queue, visited, comp =>
      if cur ∈ visited then bfsAux adj f queue visited comp
      else bfsAux adj f
        (queue ++ (adj cur).filter (fun n => n ∉ visited))
        (visited ++ [cur]) (comp ++ [cur])

/-- Fuel dominating every BFS run on graph `g`. -/
def bfsFuel (g : RDFGraph) : Nat :=
  1 + ((getAllEntities g).map (fun u => 1 + (adjacency g u).length)).sum

/-- The outer loop of `find_connected_components`: BFS from each unvisited
entity, collecting non-empty components; the visited set is shared. -/
def fccLoop (adj : Term → List Term) (fuel : Nat) :
    List Term → List Term → List (List Term)
  | [], _ => []
  | e :: es, visited =>
      if e ∈ visited then fccLoop adj fuel es visited
      else
        let r := bfsAux adj fuel [e] visited []
        if r.2 = [] then fccLoop adj fuel es r.1
        else r.2 :: fccLoop adj fuel es r.1

/-- `find_connected_components`. -/
def findConnectedComponents (g : RDFGraph) : List (List Term) :=
  fccLoop (adjacency g) (bfsFuel g) (getAllEntities g) []

/-- Degree of an entity: statements where it appears as subject or
object. -/
def entityDegree (g : RDFGraph) (e : Term) : Nat :=
  (g.triples.filter (fun t => t.1 = e ∨ t.2.2 = e)).length

/-- `_choose_representative_entity`: among the component's entities that
carry a label/comment (falling back to the whole component when none
does), the one of highest degree, first maximum winning. -/
def chooseRepresentativeEntity (component : List Term) (g : RDFGraph) :
    Option Term :=
  if component = [] then none
  else
    let labeled := component.filter (fun e =>
      g.triples.any (fun t => t.1 = e ∧
        (t.2.1 = rdfsLabel ∨ t.2.1 = rdfsComment)))
    if labeled = [] then pyMaxBy (entityDegree g) component
    else pyMaxBy (entityDegree g) labeled

/-- One component's bridging step of `_connect_via_chunk_hub`. -/
def hubStep (hub : Term) (g : RDFGraph) (comp : List Term) : RDFGraph :=
  match chooseRepresentativeEntity comp g with
  | none => g
  | some rep => (g.add (hub, schemaHasPart, rep)).add
      (rep, provWasQuotedFrom, hub)

/-- `_connect_via_chunk_hub`: add the hub entity's type and label, then
bridge the hub to one representative per component in both directions. -/
def connectViaChunkHub (g0 : RDFGraph) (components : List (List Term))
    (chunkIri domain : String) : RDFGraph :=
  let hub : Term := .iri chunkIri
  let g1 := (g0.add (hub, rdfType, .iri (domain ++ "TextChunk"))).add
    (hub, rdfsLabel, .lit "Document chunk")
  components.foldl (hubStep hub) g1

/-- `make_graph_connected`: when more than one component exists, rebuild
the graph (same statements, same bindings) and connect it through the
chunk hub; otherwise return the graph untouched. -/
def makeGraphConnected (g : RDFGraph) (domain chunkIri : String) : RDFGraph :=
  let components := findConnectedComponents g
  if components.length ≤ 1 then g
  else
    let cg : RDFGraph :=
      { triples := (RDFGraph.empty.addAll g.triples).triples,
        bindings := g.bindings }
    connectViaChunkHub cg components chunkIri domain

/-- Undirected reachability over an adjacency function. -/
def Reach (adj : Term → List Term) (a b : Term) : Prop :=
  Relation.ReflTransGen (fun x y => y ∈ adj x) a b

/-- The decreasing measure of the BFS loop. -/
def bfsMeasure (adj : Term → List Term) (univ queue visited : List Term) :
    Nat :=
  queue.length +
    ((univ.filter (fun u => u ∉ visited)).map
      (fun u => 1 + (adj u).length)).sum

/-- A concrete graph with two disconnected components. -/
def demoC4Graph : RDFGraph :=
  (RDFGraph.empty.add
    (Term.iri "http://a/1", Term.iri "http://p", Term.iri "http://a/2")).add
    (Term.iri "http://b/1", Term.iri "http://p", Term.iri "http://b/2")

theorem RDFGraph.mem_add (g : RDFGraph) (t u : Triple) :
    u ∈ (g.add t).triples ↔ u ∈ g.triples ∨ u = t := by
  unfold RDFGraph.add
  by_cases h : t ∈ g.triples
  · simp only [h, if_pos]
    constructor
    · exact Or.inl
    · rintro (hu | rfl)
      · exact hu
      · exact h
  · simp [h]

theorem RDFGraph.bindings_add (g : RDFGraph) (t : Triple) :
    (g.add t).bindings = g.bindings := by
  unfold RDFGraph.add
  by_cases h : t ∈ g.triples <;> simp [h]

theorem RDFGraph.mem_addAll (g : RDFGraph) (l : List Triple) (u : Triple) :
    u ∈ (g.addAll l).triples ↔ u ∈ g.triples ∨ u ∈ l := by
  induction l generalizing g with
  | nil => simp [RDFGraph.addAll]
  | cons t ts ih =>
      show u ∈ ((g.add t).addAll ts).triples ↔ _
      rw [ih, RDFGraph.mem_add]
      simp only [List.mem_cons]
      tauto

theorem RDFGraph.nodup_add (g : RDFGraph) (t : Triple)
    (h : g.triples.Nodup) : (g.add t).triples.Nodup := by
  unfold RDFGraph.add
  by_cases ht : t ∈ g.triples
  · simp [ht, h]
  · simp only [ht, if_neg, not_false_iff]
    simpa [List.nodup_append] using ⟨h, ht⟩

theorem RDFGraph.nodup_addAll (g : RDFGraph) (l : List Triple)
    (h : g.triples.Nodup) : (g.addAll l).triples.Nodup := by
  induction l generalizing g with
  | nil => exact h
  | cons t ts ih => exact ih (g.add t) (RDFGraph.nodup_add g t h)

theorem RDFGraph.size_add_le (g : RDFGraph) (t : Triple) :
    (g.add t).size ≤ g.size + 1 := by
  unfold RDFGraph.add RDFGraph.size
  by_cases ht : t ∈ g.triples <;> simp [ht]

/-- C7: for every triple store G and chunk namespace P the two sublimator
partitions are complementary: their union is G, their intersection is empty,
and every statement of G lies in exactly one of the two. -/
theorem sublimate_partition (g : RDFGraph) (ns : String) :
    (∀ t : Triple, t ∈ g.triples ↔
        (t ∈ (ontologyPart g ns).triples ∨ t ∈ (factsPart g ns).triples)) ∧
    (∀ t : Triple, ¬ (t ∈ (ontologyPart g ns).triples ∧
        t ∈ (factsPart g ns).triples)) := by
  constructor
  · intro t
    simp only [ontologyPart, factsPart, RDFGraph.mem_addAll, RDFGraph.empty,
      List.not_mem_nil, false_or, List.mem_filter]
    by_cases hc : sublimateCond ns t <;> simp [hc]
  · intro t ⟨h1, h2⟩
    simp only [ontologyPart, factsPart, RDFGraph.mem_addAll, RDFGraph.empty,
      List.not_mem_nil, false_or, List.mem_filter] at h1 h2
    rw [h2.2] at h1
    simp at h1

theorem retryLoop_succ (body : AgentState → AgentState) (node : WorkflowNode)
    (fuel : Nat) (s : AgentState) :
    retryLoop body node (fuel + 1) s =
      if (runStage body node s).status = Status.success
      then (runStage body node s, 1)
      else ((retryLoop body node fuel (runStage body node s)).1,
            (retryLoop body node fuel (runStage body node s)).2 + 1) := rfl

theorem retryLoop_count (body : AgentState → AgentState) (node : WorkflowNode)
    (reason : String) (hb : AlwaysFails body reason) :
    ∀ fuel (s : AgentState), s.nodeVisits node < s.maxVisits →
      s.maxVisits - s.nodeVisits node ≤ fuel →
      (retryLoop body node fuel s).2 = s.maxVisits - s.nodeVisits node ∧
      (retryLoop body node fuel s).1.status = Status.success ∧
      (retryLoop body node fuel s).1.failureStage = some node.val ∧
      (retryLoop body node fuel s).1.failureReason =
        some "Maximum visits exceeded" := by
  intro fuel
  induction fuel with
  | zero => intro s hlt hle; omega
  | succ n ih =>
      intro s hlt hle
      obtain ⟨hst, _, hnv, hmv⟩ := hb s
      have hb1 : (runStage body node s).nodeVisits node = s.nodeVisits node + 1 := by
        simp [runStage, countVisitsConditionalSuccess, hst, AgentState.setFailure,
          AgentState.clearFailure, bumpVisit, hnv, hmv]
        by_cases hex : s.maxVisits ≤ s.nodeVisits node + 1 <;>
          simp [hex, AgentState.setFailure, bumpVisit]
      by_cases hex : s.maxVisits ≤ s.nodeVisits node + 1
      · -- the budget is exhausted at this execution: forced success
        have hveq : s.nodeVisits node + 1 = s.maxVisits := by omega
        have hrun : (runStage body node s).status = Status.success ∧
            (runStage body node s).failureStage = some node.val ∧
            (runStage body node s).failureReason =
              some "Maximum visits exceeded" := by
          simp [runStage, countVisitsConditionalSuccess, hst, hnv, hmv, bumpVisit,
            hex, AgentState.setFailure]
        rw [retryLoop_succ, if_pos hrun.1]
        refine ⟨by simp; omega, hrun.1, hrun.2.1, hrun.2.2⟩
      · -- below the budget: the engine retries the same stage
        have hrun : (runStage body node s).status = Status.failed := by
          simp [runStage, countVisitsConditionalSuccess, hst, hnv, hmv, bumpVisit,
            hex, AgentState.setFailure]
        have hbm : (runStage body node s).maxVisits = s.maxVisits := by
          simp [runStage, countVisitsConditionalSuccess, hst, hnv, hmv, bumpVisit,
            hex, AgentState.setFailure]
        have hrec := ih (runStage body node s)
          (by rw [hb1, hbm]; omega) (by rw [hb1, hbm]; omega)
        rw [retryLoop_succ, if_neg (by rw [hrun]; decide)]
        rw [hb1, hbm] at hrec
        refine ⟨by simp only [hrec.1]; omega, hrec.2.1, hrec.2.2.1, hrec.2.2.2⟩

/-- C2: with `max_visits = k` and a stage whose every execution reports
content failure, the engine executes the stage exactly k times before it
forces the run status to success and proceeds to the next stage. -/
theorem retry_bound (body : AgentState → AgentState) (node : WorkflowNode)
    (reason : String) (k : Nat) (s : AgentState) (fuel : Nat)
    (hb : AlwaysFails body reason) (hk : s.maxVisits = k) (hpos : 1 ≤ k)
    (h0 : s.nodeVisits node = 0) (hfuel : k ≤ fuel) :
    (retryLoop body node fuel s).2 = k ∧
    (retryLoop body node fuel s).1.status = Status.success := by
  have := retryLoop_count body node reason hb fuel s
    (by rw [h0, hk]; omega) (by rw [h0, hk]; omega)
  rw [h0, hk] at this
  exact ⟨by rw [this.1]; omega, this.2.1⟩

theorem demoFailBody_alwaysFails : AlwaysFails demoFailBody "content rejected" := by
  intro s
  refine ⟨rfl, rfl, rfl, rfl⟩

/-- Witness for C2: at `max_visits = 3` the concrete always-failing stage
is executed exactly 3 times and the engine leaves with status success. -/
theorem retry_bound_witness :
    (retryLoop demoFailBody WorkflowNode.TEXT_TO_FACTS 5 demoState).2 = 3 ∧
    (retryLoop demoFailBody WorkflowNode.TEXT_TO_FACTS 5 demoState).1.status =
      Status.success :=
  retry_bound demoFailBody WorkflowNode.TEXT_TO_FACTS "content rejected" 3
    demoState 5 demoFailBody_alwaysFails rfl (by decide) rfl (by decide)

/-- Counterexample to C3 as stated: a stage whose every attempt fails with
reason "content rejected" ends, after budget exhaustion, with
`failure_reason = "Maximum visits exceeded"` — the last recorded failure
reason of the final failed attempt is not retained. -/
theorem exhaustion_reason_overwritten :
    (retryLoop demoFailBody WorkflowNode.TEXT_TO_FACTS 5 demoState).1.failureReason
      ≠ some "content rejected" ∧
    (retryLoop demoFailBody WorkflowNode.TEXT_TO_FACTS 5 demoState).1.failureReason
      = some "Maximum visits exceeded" := by
  constructor
  · intro h
    have := retryLoop_count demoFailBody WorkflowNode.TEXT_TO_FACTS
      "content rejected" demoFailBody_alwaysFails 5 demoState
      (by decide) (by decide)
    rw [this.2.2.2] at h
    simp at h
  · exact (retryLoop_count demoFailBody WorkflowNode.TEXT_TO_FACTS
      "content rejected" demoFailBody_alwaysFails 5 demoState
      (by decide) (by decide)).2.2.2

/-- C3 (amended): at budget exhaustion the engine stops retrying, forces
the run status to success and retains the failing stage for audit, but the
recorded failure reason is the fixed text "Maximum visits exceeded", not
the stage's own last failure reason. -/
theorem exhaustion_forced_success (body : AgentState → AgentState)
    (node : WorkflowNode) (reason : String) (s : AgentState) (fuel : Nat)
    (hb : AlwaysFails body reason)
    (hlt : s.nodeVisits node < s.maxVisits)
    (hfuel : s.maxVisits - s.nodeVisits node ≤ fuel) :
    (retryLoop body node fuel s).1.status = Status.success ∧
    (retryLoop body node fuel s).1.failureStage = some node.val ∧
    (retryLoop body node fuel s).1.failureReason =
      some "Maximum visits exceeded" := by
  have := retryLoop_count body node reason hb fuel s hlt hfuel
  exact ⟨this.2.1, this.2.2.1, this.2.2.2⟩

/-- Witness for the amended C3 at the concrete always-failing stage. -/
theorem exhaustion_forced_success_witness :
    (retryLoop demoFailBody WorkflowNode.TEXT_TO_FACTS 5 demoState).1.status =
      Status.success ∧
    (retryLoop demoFailBody WorkflowNode.TEXT_TO_FACTS 5 demoState).1.failureStage =
      some WorkflowNode.TEXT_TO_FACTS.val ∧
    (retryLoop demoFailBody WorkflowNode.TEXT_TO_FACTS 5 demoState).1.failureReason =
      some "Maximum visits exceeded" :=
  exhaustion_forced_success demoFailBody WorkflowNode.TEXT_TO_FACTS
    "content rejected" demoState 5 demoFailBody_alwaysFails
    (by decide) (by decide)

/-- C10: with a non-empty queue the chunks-empty check pops the first chunk
into the current slot, zeroes every visit counter, sets status FAILED
without touching the failure record, and routes back to ontology
selection; with an empty queue it clears the current chunk, sets status
SUCCESS and routes to aggregation. -/
theorem check_chunks_empty_spec (s : AgentState) :
    (∀ c rest, s.chunks = c :: rest →
      (checkChunksEmpty s).chunks = rest ∧
      (checkChunksEmpty s).currentChunk = some c ∧
      (∀ n, (checkChunksEmpty s).nodeVisits n = 0) ∧
      (checkChunksEmpty s).status = Status.failed ∧
      (checkChunksEmpty s).failureStage = s.failureStage ∧
      (checkChunksEmpty s).failureReason = s.failureReason ∧
      chunksEmptyRoute (checkChunksEmpty s).status =
        some WorkflowNode.SELECT_ONTOLOGY) ∧
    (s.chunks = [] →
      (checkChunksEmpty s).currentChunk = none ∧
      (checkChunksEmpty s).status = Status.success ∧
      chunksEmptyRoute (checkChunksEmpty s).status =
        some WorkflowNode.AGGREGATE_FACTS) := by
  constructor
  · intro c rest h
    simp [checkChunksEmpty, h, chunksEmptyRoute]
  · intro h
    simp [checkChunksEmpty, h, chunksEmptyRoute]

/-- Witness for C10 at a concrete one-chunk state and at the empty state. -/
theorem check_chunks_empty_witness :
    (checkChunksEmpty { demoState with chunks := [demoChunk] }).currentChunk =
        some demoChunk ∧
    (checkChunksEmpty { demoState with chunks := [demoChunk] }).status =
        Status.failed ∧
    (checkChunksEmpty demoState).status = Status.success ∧
    chunksEmptyRoute (checkChunksEmpty demoState).status =
        some WorkflowNode.AGGREGATE_FACTS := by
  refine ⟨?_, ?_, ?_, ?_⟩
  · exact ((check_chunks_empty_spec { demoState with chunks := [demoChunk] }).1
      demoChunk [] rfl).2.1
  · exact ((check_chunks_empty_spec { demoState with chunks := [demoChunk] }).1
      demoChunk [] rfl).2.2.2.1
  · exact ((check_chunks_empty_spec demoState).2 rfl).2.1
  · exact ((check_chunks_empty_spec demoState).2 rfl).2.2

/-- Counterexample to C1 as stated: one chunk with one statement (so
Σcᵢ = 1 and one distinct subject) aggregates to 4 statements — the two
chunk provenance triples are not accounted for by the claimed upper bound
Σcᵢ + Σ distinct-subjects = 2. -/
theorem aggregate_bounds_counterexample :
    (aggregateGraphs [demoC1Chunk] "https://example.com/doc/d/").size = 4 ∧
    ¬ ((aggregateGraphs [demoC1Chunk] "https://example.com/doc/d/").size ≤
        1 + 1) := by
  constructor
  · rfl
  · intro h
    have : (aggregateGraphs [demoC1Chunk] "https://example.com/doc/d/").size = 4 :=
      rfl
    omega

theorem foldl_addAll_mem {α : Type} (f : α → List Triple) (cs : List α)
    (g : RDFGraph) (u : Triple) :
    u ∈ (cs.foldl (fun g c => g.addAll (f c)) g).triples ↔
      u ∈ g.triples ∨ ∃ c ∈ cs, u ∈ f c := by
  induction cs generalizing g with
  | nil => simp
  | cons c cs ih =>
      show u ∈ (cs.foldl _ (g.addAll (f c))).triples ↔ _
      rw [ih, RDFGraph.mem_addAll]
      simp only [List.mem_cons]
      constructor
      · rintro ((h | h) | ⟨c', hc', hu⟩)
        · exact Or.inl h
        · exact Or.inr ⟨c, Or.inl rfl, h⟩
        · exact Or.inr ⟨c', Or.inr hc', hu⟩
      · rintro (h | ⟨c', (rfl | hc'), hu⟩)
        · exact Or.inl (Or.inl h)
        · exact Or.inl (Or.inr hu)
        · exact Or.inr ⟨c', hc', hu⟩

theorem foldl_addAll_nodup {α : Type} (f : α → List Triple) (cs : List α)
    (g : RDFGraph) (h : g.triples.Nodup) :
    (cs.foldl (fun g c => g.addAll (f c)) g).triples.Nodup := by
  induction cs generalizing g with
  | nil => exact h
  | cons c cs ih => exact ih (g.addAll (f c)) (RDFGraph.nodup_addAll g (f c) h)

theorem list_subset_toFinset_card_le {l l' : List Triple}
    (hsub : ∀ u, u ∈ l → u ∈ l') : l.toFinset.card ≤ l'.toFinset.card := by
  apply Finset.card_le_card
  intro u hu
  rw [List.mem_toFinset] at hu
  rw [List.mem_toFinset]
  exact hsub u hu

/-- Per-chunk cardinality bound: the distinct triples a chunk contributes
number at most 2 (provenance pair) plus its statement count (rewritten
statements) plus its distinct-subject count (generated-by links). -/
theorem chunkTriples_card_le (em pm : List (Term × Term)) (docNs : String)
    (c : Chunk) :
    (chunkTriples em pm docNs c).toFinset.card ≤
      2 + c.graph.triples.length +
        (c.graph.triples.map Prod.fst).dedup.length := by
  classical
  set ci : Term := .iri c.iri
  set rw : Triple → Triple := fun t =>
    (dictGetD em t.1 t.1, dictGetD pm t.2.1 t.2.1,
      if t.2.2.isIRI then dictGetD em t.2.2 t.2.2 else t.2.2)
  set gb : Term → Triple := fun s =>
    (dictGetD em s s, provWasGeneratedBy, ci)
  have hsub : ∀ u, u ∈ chunkTriples em pm docNs c →
      u ∈ ((ci, rdfType, provEntity) :: (ci, provWasPartOf, .iri docNs) ::
        (c.graph.triples.map rw ++ (c.graph.triples.map Prod.fst).map gb)) := by
    intro u hu
    simp only [chunkTriples, List.mem_cons, List.mem_flatMap] at hu
    rcases hu with rfl | rfl | ⟨t, ht, hu⟩
    · exact List.mem_cons_self _ _
    · exact List.mem_cons_of_mem _ (List.mem_cons_self _ _)
    · apply List.mem_cons_of_mem
      apply List.mem_cons_of_mem
      rw [List.mem_append]
      rcases hu with rfl | hu2
      · exact Or.inl (List.mem_map_of_mem rw ht)
      · by_cases hiri : (dictGetD em t.1 t.1).isIRI
        · simp only [hiri, if_pos, List.mem_singleton] at hu2
          subst hu2
          refine Or.inr ?_
          rw [List.map_map]
          exact List.mem_map_of_mem _ ht
        · simp [hiri] at hu2
  have h1 := list_subset_toFinset_card_le hsub
  have h2 : ((ci, rdfType, provEntity) :: (ci, provWasPartOf, .iri docNs) ::
      (c.graph.triples.map rw ++
        (c.graph.triples.map Prod.fst).map gb)).toFinset.card ≤
      2 + c.graph.triples.length +
        (c.graph.triples.map Prod.fst).dedup.length := by
    rw [List.toFinset_cons, List.toFinset_cons, List.toFinset_append]
    have hins : ∀ (a : Triple) (s : Finset Triple),
        (insert a s).card ≤ s.card + 1 := fun a s => Finset.card_insert_le a s
    calc (insert (ci, rdfType, provEntity) (insert (ci, provWasPartOf, .iri docNs)
            ((c.graph.triples.map rw).toFinset ∪
              ((c.graph.triples.map Prod.fst).map gb).toFinset))).card
        ≤ (insert (ci, provWasPartOf, .iri docNs)
            ((c.graph.triples.map rw).toFinset ∪
              ((c.graph.triples.map Prod.fst).map gb).toFinset)).card + 1 :=
          hins _ _
      _ ≤ ((c.graph.triples.map rw).toFinset ∪
              ((c.graph.triples.map Prod.fst).map gb).toFinset).card + 1 + 1 :=
          Nat.add_le_add_right (hins _ _) 1
      _ ≤ ((c.graph.triples.map rw).toFinset.card +
            ((c.graph.triples.map Prod.fst).map gb).toFinset.card) + 1 + 1 := by
          have := Finset.card_union_le (c.graph.triples.map rw).toFinset
            ((c.graph.triples.map Prod.fst).map gb).toFinset
          omega
      _ ≤ (c.graph.triples.length +
            (c.graph.triples.map Prod.fst).dedup.length) + 1 + 1 := by
          have ha : (c.graph.triples.map rw).toFinset.card ≤
              c.graph.triples.length := by
            calc (c.graph.triples.map rw).toFinset.card
                ≤ (c.graph.triples.map rw).length := List.toFinset_card_le _
              _ = c.graph.triples.length := List.length_map _ _
          have hb : ((c.graph.triples.map Prod.fst).map gb).toFinset.card ≤
              (c.graph.triples.map Prod.fst).dedup.length := by
            have hsub2 : ((c.graph.triples.map Prod.fst).map gb).toFinset ⊆
                (c.graph.triples.map Prod.fst).toFinset.image gb := by
              intro u hu
              rw [List.mem_toFinset, List.mem_map] at hu
              obtain ⟨s, hs, rfl⟩ := hu
              exact Finset.mem_image.mpr ⟨s, List.mem_toFinset.mpr hs, rfl⟩
            calc ((c.graph.triples.map Prod.fst).map gb).toFinset.card
                ≤ ((c.graph.triples.map Prod.fst).toFinset.image gb).card :=
                  Finset.card_le_card hsub2
              _ ≤ (c.graph.triples.map Prod.fst).toFinset.card :=
                  Finset.card_image_le
              _ = (c.graph.triples.map Prod.fst).dedup.length :=
                  List.card_toFinset _
          omega
      _ = 2 + c.graph.triples.length +
            (c.graph.triples.map Prod.fst).dedup.length := by omega
  omega

theorem provPairs_nodup (chunks : List Chunk) (docNs : String)
    (hiri : (chunks.map Chunk.iri).Nodup) : (provPairs chunks docNs).Nodup := by
  induction chunks with
  | nil => simp [provPairs]
  | cons c cs ih =>
      rw [List.map_cons, List.nodup_cons] at hiri
      have htail := ih hiri.2
      show ((.iri c.iri, rdfType, provEntity) :: (.iri c.iri, provWasPartOf,
        .iri docNs) :: provPairs cs docNs).Nodup
      have hmem : ∀ u ∈ provPairs cs docNs, (u.1 : Term) ≠ .iri c.iri := by
        intro u hu
        simp only [provPairs, List.mem_flatMap, List.mem_cons,
          List.mem_singleton] at hu
        obtain ⟨c', hc', hu⟩ := hu
        have hne : c'.iri ≠ c.iri := by
          intro he
          exact hiri.1 (he ▸ List.mem_map_of_mem Chunk.iri hc')
        rcases hu with rfl | rfl | h
        · exact fun he => hne (Term.iri.inj he)
        · exact fun he => hne (Term.iri.inj he)
        · cases h
      rw [List.nodup_cons, List.nodup_cons]
      refine ⟨?_, ?_, htail⟩
      · intro h
        rcases List.mem_cons.mp h with he | h2
        · exact absurd (congrArg (fun t : Triple => t.2.1) he) (by
            simp [rdfType, provWasPartOf])
        · exact hmem _ h2 rfl
      · intro h
        exact hmem _ h rfl

theorem provPairs_length (chunks : List Chunk) (docNs : String) :
    (provPairs chunks docNs).length = 2 * chunks.length := by
  induction chunks with
  | nil => simp [provPairs]
  | cons c cs ih =>
      show (_ :: _ :: provPairs cs docNs).length = _
      simp only [List.length_cons, ih]
      omega

theorem flatMap_chunkTriples_card_le (em pm : List (Term × Term))
    (docNs : String) (chunks : List Chunk) :
    (chunks.flatMap (chunkTriples em pm docNs)).toFinset.card ≤
      (chunks.map (fun c => c.graph.triples.length)).sum +
      (chunks.map (fun c => (c.graph.triples.map Prod.fst).dedup.length)).sum +
      2 * chunks.length := by
  classical
  induction chunks with
  | nil => simp
  | cons c cs ih =>
      rw [List.flatMap_cons, List.toFinset_append]
      have hu := Finset.card_union_le (chunkTriples em pm docNs c).toFinset
        (cs.flatMap (chunkTriples em pm docNs)).toFinset
      have hc := chunkTriples_card_le em pm docNs c
      simp only [List.map_cons, List.sum_cons, List.length_cons]
      omega

theorem aggregateCore_bounds (em pm : List (Term × Term)) (docNs : String)
    (g0 : RDFGraph) (chunks : List Chunk) (hg0nil : g0.triples = [])
    (hiri : (chunks.map Chunk.iri).Nodup) :
    2 * chunks.length ≤ (aggregateCore em pm docNs g0 chunks).size ∧
    (aggregateCore em pm docNs g0 chunks).size ≤
      (chunks.map (fun c => c.graph.triples.length)).sum +
      (chunks.map (fun c => (c.graph.triples.map Prod.fst).dedup.length)).sum +
      2 * chunks.length := by
  classical
  have hmem : ∀ u, u ∈ (aggregateCore em pm docNs g0 chunks).triples ↔
      ∃ c ∈ chunks, u ∈ chunkTriples em pm docNs c := by
    intro u
    rw [aggregateCore, foldl_addAll_mem, hg0nil]
    simp
  have hnodup : (aggregateCore em pm docNs g0 chunks).triples.Nodup := by
    rw [aggregateCore]
    exact foldl_addAll_nodup _ chunks g0 (by rw [hg0nil]; exact List.nodup_nil)
  have hsize : (aggregateCore em pm docNs g0 chunks).size =
      (aggregateCore em pm docNs g0 chunks).triples.toFinset.card := by
    rw [RDFGraph.size, List.toFinset_card_of_nodup hnodup]
  constructor
  · -- lower bound: the 2·N provenance pairs are distinct and all present
    have hsubset : ∀ u, u ∈ provPairs chunks docNs →
        u ∈ (aggregateCore em pm docNs g0 chunks).triples := by
      intro u hu
      simp only [provPairs, List.mem_flatMap, List.mem_cons,
        List.mem_singleton] at hu
      obtain ⟨c, hc, hu⟩ := hu
      rw [hmem]
      refine ⟨c, hc, ?_⟩
      rcases hu with rfl | rfl | h
      · exact List.mem_cons_self _ _
      · exact List.mem_cons_of_mem _ (List.mem_cons_self _ _)
      · cases h
    have h1 : (provPairs chunks docNs).length =
        (provPairs chunks docNs).toFinset.card :=
      (List.toFinset_card_of_nodup (provPairs_nodup chunks docNs hiri)).symm
    have h2 := list_subset_toFinset_card_le hsubset
    rw [hsize, ← provPairs_length chunks docNs, h1]
    exact h2
  · -- upper bound: every statement comes from some chunk's contribution
    have hsubset : ∀ u, u ∈ (aggregateCore em pm docNs g0 chunks).triples →
        u ∈ chunks.flatMap (chunkTriples em pm docNs) := by
      intro u hu
      rw [hmem] at hu
      obtain ⟨c, hc, hu⟩ := hu
      exact List.mem_flatMap.mpr ⟨c, hc, hu⟩
    have h1 := list_subset_toFinset_card_le hsubset
    have h2 := flatMap_chunkTriples_card_le em pm docNs chunks
    rw [hsize]
    omega

/-- C1 (amended): for chunks with pairwise-distinct IRIs and duplicate-free
graphs, the aggregated statement count lies between 2·N (the chunk
provenance pairs) and Σcᵢ + Σ distinct-subjects-per-chunk + 2·N,
inclusive. -/
theorem aggregate_size_bounds (chunks : List Chunk) (docNs : String)
    (hiri : (chunks.map Chunk.iri).Nodup)
    (_hnd : ∀ c ∈ chunks, c.graph.triples.Nodup) :
    2 * chunks.length ≤ (aggregateGraphs chunks docNs).size ∧
    (aggregateGraphs chunks docNs).size ≤
      (chunks.map (fun c => c.graph.triples.length)).sum +
      (chunks.map (fun c => (c.graph.triples.map Prod.fst).dedup.length)).sum +
      2 * chunks.length := by
  exact aggregateCore_bounds _ _ docNs _ chunks rfl hiri

/-- Witness for the amended C1 on two concrete chunks. -/
theorem aggregate_size_bounds_witness :
    2 * 2 ≤ (aggregateGraphs [demoC1Chunk, demoC1ChunkB]
        "https://example.com/doc/d/").size ∧
    (aggregateGraphs [demoC1Chunk, demoC1ChunkB]
        "https://example.com/doc/d/").size ≤ (1 + 2) + (1 + 2) + 2 * 2 := by
  have h := aggregate_size_bounds [demoC1Chunk, demoC1ChunkB]
    "https://example.com/doc/d/" (by decide)
    (by intro c hc
        simp only [List.mem_cons, List.mem_singleton] at hc
        rcases hc with rfl | rfl | hc
        · decide
        · decide
        · cases hc)
  have hl : ([demoC1Chunk, demoC1ChunkB].map
      (fun c => c.graph.triples.length)).sum = 3 := by decide
  have hd : ([demoC1Chunk, demoC1ChunkB].map
      (fun c => (c.graph.triples.map Prod.fst).dedup.length)).sum = 3 := by
    decide
  have hn : ([demoC1Chunk, demoC1ChunkB] : List Chunk).length = 2 := rfl
  rw [hl, hd, hn] at h
  exact ⟨h.1, by have := h.2; omega⟩

/-! ### Structure of the greedy clustering -/

theorem headD_mem {g : List Term} (h : g ≠ []) : g.headD dummyTerm ∈ g := by
  cases g with
  | nil => exact absurd rfl h
  | cons x xs => exact List.mem_cons_self x xs

theorem innerScan_proc_mono {β : Type} (f : β → Bool) (l : List (Term × β)) :
    ∀ (proc : List Term), ∀ x ∈ proc, x ∈ (innerScan f l proc).2 := by
  induction l with
  | nil => intro proc x hx; simpa [innerScan] using hx
  | cons p rest ih =>
      intro proc x hx
      obtain ⟨e2, i2⟩ := p
      simp only [innerScan]
      by_cases h1 : e2 ∈ proc
      · simp only [h1, if_pos]
        exact ih proc x hx
      · simp only [h1, if_neg, not_false_iff]
        by_cases h2 : f i2
        · simp only [h2, if_pos]
          exact ih (proc ++ [e2]) x (List.mem_append_left _ hx)
        · simp only [h2]
          simp only [Bool.false_eq_true, if_neg, not_false_iff]
          exact ih proc x hx

theorem innerScan_absorb {β : Type} (f : β → Bool) (l : List (Term × β)) :
    ∀ (proc : List Term) (e : Term) (i : β), (e, i) ∈ l → f i = true →
      e ∈ (innerScan f l proc).2 := by
  induction l with
  | nil => intro proc e i h _; cases h
  | cons p rest ih =>
      intro proc e i hmem hf
      obtain ⟨e2, i2⟩ := p
      rcases List.mem_cons.mp hmem with heq | hmem2
      · obtain ⟨he, hi⟩ := Prod.mk.injEq .. ▸ heq
        subst he; subst hi
        simp only [innerScan]
        by_cases h1 : e ∈ proc
        · simp only [h1, if_pos]
          exact innerScan_proc_mono f rest proc e h1
        · simp only [h1, if_neg, not_false_iff, hf, if_pos]
          exact innerScan_proc_mono f rest (proc ++ [e]) e
            (List.mem_append_right _ (List.mem_singleton.mpr rfl))
      · simp only [innerScan]
        by_cases h1 : e2 ∈ proc
        · simp only [h1, if_pos]
          exact ih proc e i hmem2 hf
        · simp only [h1, if_neg, not_false_iff]
          by_cases h2 : f i2
          · simp only [h2, if_pos]
            exact ih (proc ++ [e2]) e i hmem2 hf
          · simp only [h2]
            simp only [Bool.false_eq_true, if_neg, not_false_iff]
            exact ih proc e i hmem2 hf

theorem innerScan_group_src {β : Type} (f : β → Bool) (l : List (Term × β)) :
    ∀ (proc : List Term), ∀ e ∈ (innerScan f l proc).1,
      ∃ i, (e, i) ∈ l ∧ f i = true := by
  induction l with
  | nil => intro proc e he; simp [innerScan] at he
  | cons p rest ih =>
      intro proc e he
      obtain ⟨e2, i2⟩ := p
      simp only [innerScan] at he
      by_cases h1 : e2 ∈ proc
      · simp only [h1, if_pos] at he
        obtain ⟨i, hi, hf⟩ := ih proc e he
        exact ⟨i, List.mem_cons_of_mem _ hi, hf⟩
      · simp only [h1, if_neg, not_false_iff] at he
        by_cases h2 : f i2
        · simp only [h2, if_pos] at he
          rcases List.mem_cons.mp he with rfl | he2
          · exact ⟨i2, List.mem_cons_self _ _, h2⟩
          · obtain ⟨i, hi, hf⟩ := ih (proc ++ [e2]) e he2
            exact ⟨i, List.mem_cons_of_mem _ hi, hf⟩
        · simp only [h2] at he
          simp only [Bool.false_eq_true, if_neg, not_false_iff] at he
          obtain ⟨i, hi, hf⟩ := ih proc e he
          exact ⟨i, List.mem_cons_of_mem _ hi, hf⟩

theorem innerScan_group_not_proc {β : Type} (f : β → Bool)
    (l : List (Term × β)) :
    ∀ (proc : List Term), ∀ e ∈ (innerScan f l proc).1, e ∉ proc := by
  induction l with
  | nil => intro proc e he; simp [innerScan] at he
  | cons p rest ih =>
      intro proc e he
      obtain ⟨e2, i2⟩ := p
      simp only [innerScan] at he
      by_cases h1 : e2 ∈ proc
      · simp only [h1, if_pos] at he
        exact ih proc e he
      · simp only [h1, if_neg, not_false_iff] at he
        by_cases h2 : f i2
        · simp only [h2, if_pos] at he
          rcases List.mem_cons.mp he with rfl | he2
          · exact h1
          · intro hp
            exact ih (proc ++ [e2]) e he2 (List.mem_append_left _ hp)
        · simp only [h2] at he
          simp only [Bool.false_eq_true, if_neg, not_false_iff] at he
          exact ih proc e he

theorem innerScan_group_sub_proc {β : Type} (f : β → Bool)
    (l : List (Term × β)) :
    ∀ (proc : List Term), ∀ e ∈ (innerScan f l proc).1,
      e ∈ (innerScan f l proc).2 := by
  induction l with
  | nil => intro proc e he; simp [innerScan] at he
  | cons p rest ih =>
      intro proc e he
      obtain ⟨e2, i2⟩ := p
      simp only [innerScan]
      simp only [innerScan] at he
      by_cases h1 : e2 ∈ proc
      · simp only [h1, if_pos] at he ⊢
        exact ih proc e he
      · simp only [h1, if_neg, not_false_iff] at he ⊢
        by_cases h2 : f i2
        · simp only [h2, if_pos] at he ⊢
          rcases List.mem_cons.mp he with rfl | he2
          · exact innerScan_proc_mono f rest (proc ++ [e]) e
              (List.mem_append_right _ (List.mem_singleton.mpr rfl))
          · exact ih (proc ++ [e2]) e he2
        · simp only [h2] at he ⊢
          simp only [Bool.false_eq_true, if_neg, not_false_iff] at he ⊢
          exact ih proc e he

theorem greedyGroups_not_proc {β : Type} (matchF : β → β → Bool)
    (l : List (Term × β)) :
    ∀ (proc : List Term), ∀ g ∈ greedyGroups matchF l proc, ∀ e ∈ g,
      e ∉ proc := by
  induction l with
  | nil => intro proc g hg; simp [greedyGroups] at hg
  | cons p rest ih =>
      intro proc g hg e he
      obtain ⟨e1, i1⟩ := p
      simp only [greedyGroups] at hg
      by_cases h1 : e1 ∈ proc
      · simp only [h1, if_pos] at hg
        exact ih proc g hg e he
      · simp only [h1, if_neg, not_false_iff] at hg
        by_cases h2 : 1 <
            (e1 :: (innerScan (matchF i1) rest (proc ++ [e1])).1).length
        · simp only [h2, if_pos] at hg
          rcases List.mem_cons.mp hg with rfl | hg2
          · rcases List.mem_cons.mp he with rfl | he2
            · exact h1
            · intro hp
              exact innerScan_group_not_proc (matchF i1) rest (proc ++ [e1]) e
                he2 (List.mem_append_left _ hp)
          · intro hp
            exact ih (innerScan (matchF i1) rest (proc ++ [e1])).2 g hg2 e he
              (innerScan_proc_mono (matchF i1) rest (proc ++ [e1]) e
                (List.mem_append_left _ hp))
        · simp only [h2] at hg
          simp only [if_neg, not_false_iff] at hg
          intro hp
          exact ih (innerScan (matchF i1) rest (proc ++ [e1])).2 g hg e he
            (innerScan_proc_mono (matchF i1) rest (proc ++ [e1]) e
              (List.mem_append_left _ hp))

theorem greedyGroups_length {β : Type} (matchF : β → β → Bool)
    (l : List (Term × β)) :
    ∀ (proc : List Term), ∀ g ∈ greedyGroups matchF l proc, 2 ≤ g.length := by
  induction l with
  | nil => intro proc g hg; simp [greedyGroups] at hg
  | cons p rest ih =>
      intro proc g hg
      obtain ⟨e1, i1⟩ := p
      simp only [greedyGroups] at hg
      by_cases h1 : e1 ∈ proc
      · simp only [h1, if_pos] at hg
        exact ih proc g hg
      · simp only [h1, if_neg, not_false_iff] at hg
        by_cases h2 : 1 <
            (e1 :: (innerScan (matchF i1) rest (proc ++ [e1])).1).length
        · simp only [h2, if_pos] at hg
          rcases List.mem_cons.mp hg with rfl | hg2
          · omega
          · exact ih _ g hg2
        · simp only [h2] at hg
          simp only [if_neg, not_false_iff] at hg
          exact ih _ g hg

theorem greedyGroups_seed {β : Type} (matchF : β → β → Bool)
    (l : List (Term × β)) :
    ∀ (proc : List Term), ∀ g ∈ greedyGroups matchF l proc,
      ∃ i1, (g.headD dummyTerm, i1) ∈ l ∧
        ∀ e ∈ g.tail, ∃ i2, (e, i2) ∈ l ∧ matchF i1 i2 = true := by
  induction l with
  | nil => intro proc g hg; simp [greedyGroups] at hg
  | cons p rest ih =>
      intro proc g hg
      obtain ⟨e1, i1⟩ := p
      simp only [greedyGroups] at hg
      by_cases h1 : e1 ∈ proc
      · simp only [h1, if_pos] at hg
        obtain ⟨j1, hj1, hrest⟩ := ih proc g hg
        refine ⟨j1, List.mem_cons_of_mem _ hj1, fun e he => ?_⟩
        obtain ⟨j2, hj2, hm⟩ := hrest e he
        exact ⟨j2, List.mem_cons_of_mem _ hj2, hm⟩
      · simp only [h1, if_neg, not_false_iff] at hg
        by_cases h2 : 1 <
            (e1 :: (innerScan (matchF i1) rest (proc ++ [e1])).1).length
        · simp only [h2, if_pos] at hg
          rcases List.mem_cons.mp hg with rfl | hg2
          · refine ⟨i1, List.mem_cons_self _ _, fun e he => ?_⟩
            obtain ⟨j2, hj2, hm⟩ :=
              innerScan_group_src (matchF i1) rest (proc ++ [e1]) e he
            exact ⟨j2, List.mem_cons_of_mem _ hj2, hm⟩
          · obtain ⟨j1, hj1, hrest⟩ := ih _ g hg2
            refine ⟨j1, List.mem_cons_of_mem _ hj1, fun e he => ?_⟩
            obtain ⟨j2, hj2, hm⟩ := hrest e he
            exact ⟨j2, List.mem_cons_of_mem _ hj2, hm⟩
        · simp only [h2] at hg
          simp only [if_neg, not_false_iff] at hg
          obtain ⟨j1, hj1, hrest⟩ := ih _ g hg
          refine ⟨j1, List.mem_cons_of_mem _ hj1, fun e he => ?_⟩
          obtain ⟨j2, hj2, hm⟩ := hrest e he
          exact ⟨j2, List.mem_cons_of_mem _ hj2, hm⟩

theorem greedyGroups_pairwise {β : Type} (matchF : β → β → Bool)
    (l : List (Term × β)) :
    ∀ (proc : List Term), (greedyGroups matchF l proc).Pairwise
      (fun g1 g2 => (∀ e ∈ g1, e ∉ g2) ∧
        ∃ i1 i2, (g1.headD dummyTerm, i1) ∈ l ∧
          (g2.headD dummyTerm, i2) ∈ l ∧ matchF i1 i2 = false) := by
  induction l with
  | nil => intro proc; simp [greedyGroups]
  | cons p rest ih =>
      intro proc
      obtain ⟨e1, i1⟩ := p
      simp only [greedyGroups]
      have hlift : ∀ (pr : List Term),
          (greedyGroups matchF rest pr).Pairwise
            (fun g1 g2 => (∀ e ∈ g1, e ∉ g2) ∧
              ∃ j1 j2, (g1.headD dummyTerm, j1) ∈ (e1, i1) :: rest ∧
                (g2.headD dummyTerm, j2) ∈ (e1, i1) :: rest ∧
                matchF j1 j2 = false) := by
        intro pr
        refine (ih pr).imp ?_
        rintro g1 g2 ⟨hdisj, j1, j2, hm1, hm2, hf⟩
        exact ⟨hdisj, j1, j2, List.mem_cons_of_mem _ hm1,
          List.mem_cons_of_mem _ hm2, hf⟩
      by_cases h1 : e1 ∈ proc
      · simp only [h1, if_pos]
        exact hlift proc
      · simp only [h1, if_neg, not_false_iff]
        by_cases h2 : 1 <
            (e1 :: (innerScan (matchF i1) rest (proc ++ [e1])).1).length
        · simp only [h2, if_pos]
          refine List.Pairwise.cons ?_ (hlift _)
          intro g2 hg2
          have hg2ne : g2 ≠ [] := by
            have := greedyGroups_length matchF rest _ g2 hg2
            intro h
            rw [h] at this
            simp at this
          have hhd2 : g2.headD dummyTerm ∈ g2 := headD_mem hg2ne
          have hnp := greedyGroups_not_proc matchF rest _ g2 hg2
          constructor
          · -- every member of the new group is processed, members of later
            -- groups are not
            intro e he
            rcases List.mem_cons.mp he with rfl | he2
            · intro hin
              exact hnp e hin (innerScan_proc_mono (matchF i1) rest
                (proc ++ [e]) e
                (List.mem_append_right _ (List.mem_singleton.mpr rfl)))
            · intro hin
              exact hnp e hin
                (innerScan_group_sub_proc (matchF i1) rest (proc ++ [e1]) e he2)
          · -- the group seeds do not match, else the later seed would have
            -- been absorbed
            obtain ⟨j2, hj2, _⟩ := greedyGroups_seed matchF rest _ g2 hg2
            refine ⟨i1, j2, List.mem_cons_self _ _,
              List.mem_cons_of_mem _ hj2, ?_⟩
            by_contra hmm
            have hmt : matchF i1 j2 = true := by
              cases hb : matchF i1 j2
              · exact absurd hb hmm
              · rfl
            have habs := innerScan_absorb (matchF i1) rest (proc ++ [e1])
              (g2.headD dummyTerm) j2 hj2 hmt
            exact hnp (g2.headD dummyTerm) hhd2 habs
        · simp only [h2]
          simp only [if_neg, not_false_iff]
          exact hlift _

/-! ### Mapping-lookup lemmas -/

theorem dictGetD_nil {β : Type} (x : Term) (d : β) :
    dictGetD ([] : List (Term × β)) x d = d := rfl

theorem dictGetD_cons {β : Type} (k0 : Term) (v0 : β) (rest : List (Term × β))
    (x : Term) (d : β) :
    dictGetD ((k0, v0) :: rest) x d =
      if k0 = x then v0 else dictGetD rest x d := by
  by_cases h : k0 = x <;> simp [dictGetD, List.find?, h]

theorem dictGetD_set {β : Type} (m : List (Term × β)) (k x : Term) (v d : β) :
    dictGetD (dictSet m k v) x d = if x = k then v else dictGetD m x d := by
  induction m with
  | nil =>
      show dictGetD [(k, v)] x d = _
      rw [dictGetD_cons, dictGetD_nil]
      by_cases h : x = k
      · rw [if_pos h, if_pos h.symm]
      · rw [if_neg h, if_neg (fun he : k = x => h he.symm)]
  | cons kv rest ih =>
      obtain ⟨k0, v0⟩ := kv
      by_cases h0 : k0 = k
      · subst h0
        have hset : dictSet ((k0, v0) :: rest) k0 v = (k0, v) :: rest := by
          simp [dictSet]
        rw [hset, dictGetD_cons, dictGetD_cons]
        by_cases h : k0 = x
        · rw [if_pos h, if_pos h, if_pos h.symm]
        · rw [if_neg h, if_neg h, if_neg (fun he : x = k0 => h he.symm)]
      · have hset : dictSet ((k0, v0) :: rest) k v =
            (k0, v0) :: dictSet rest k v := by
          simp [dictSet, h0]
        rw [hset, dictGetD_cons, dictGetD_cons, ih]
        by_cases h : k0 = x
        · have hxk : ¬ x = k := by
            intro he
            exact h0 (h.trans he)
          rw [if_pos h, if_pos h, if_neg hxk]
        · rw [if_neg h, if_neg h]

theorem dictGetD_group_foldl (c : Term) (g : List Term)
    (m : List (Term × Term)) (x d : Term) :
    dictGetD (g.foldl (fun m e => dictSet m e c) m) x d =
      if x ∈ g then c else dictGetD m x d := by
  induction g generalizing m with
  | nil => simp
  | cons e g ih =>
      show dictGetD (g.foldl _ (dictSet m e c)) x d = _
      rw [ih (dictSet m e c), dictGetD_set]
      by_cases hg : x ∈ g
      · simp [hg, List.mem_cons]
      · by_cases he : x = e
        · subst he; simp [hg]
        · simp [hg, he, List.mem_cons]

theorem mapGroups_get_of_not_mem (canonF : List Term → Term)
    (groups : List (List Term)) :
    ∀ (m : List (Term × Term)) (x d : Term),
      (∀ g ∈ groups, x ∉ g) →
      dictGetD (groups.foldl
        (fun m g => g.foldl (fun m e => dictSet m e (canonF g)) m) m) x d =
        dictGetD m x d := by
  induction groups with
  | nil => intro m x d _; rfl
  | cons g0 gs ih =>
      intro m x d hx
      show dictGetD (gs.foldl _ (g0.foldl _ m)) x d = _
      rw [ih _ x d (fun g hg => hx g (List.mem_cons_of_mem _ hg)),
        dictGetD_group_foldl]
      simp [hx g0 (List.mem_cons_self _ _)]

theorem mapGroups_get_persist (canonF : List Term → Term)
    (groups : List (List Term)) :
    ∀ (m : List (Term × Term)) (x d : Term) (c : Term),
      (∀ g ∈ groups, x ∈ g → canonF g = c) →
      dictGetD m x d = c →
      dictGetD (groups.foldl
        (fun m g => g.foldl (fun m e => dictSet m e (canonF g)) m) m) x d =
        c := by
  induction groups with
  | nil => intro m x d c _ hbase; exact hbase
  | cons g0 gs ih =>
      intro m x d c hall hbase
      show dictGetD (gs.foldl _ (g0.foldl _ m)) x d = _
      refine ih _ x d c (fun g hg hx => hall g (List.mem_cons_of_mem _ hg) hx) ?_
      rw [dictGetD_group_foldl]
      by_cases hx : x ∈ g0
      · simp [hx, hall g0 (List.mem_cons_self _ _) hx]
      · simp [hx, hbase]

theorem mapGroups_get_of_mem (canonF : List Term → Term)
    (groups : List (List Term)) :
    ∀ (m : List (Term × Term)) (x d : Term) (g : List Term),
      g ∈ groups → x ∈ g →
      (∀ g' ∈ groups, x ∈ g' → canonF g' = canonF g) →
      dictGetD (groups.foldl
        (fun m g => g.foldl (fun m e => dictSet m e (canonF g)) m) m) x d =
        canonF g := by
  induction groups with
  | nil => intro m x d g hg; cases hg
  | cons g0 gs ih =>
      intro m x d g hg hx hall
      show dictGetD (gs.foldl _ (g0.foldl _ m)) x d = _
      by_cases hx0 : x ∈ g0
      · refine mapGroups_get_persist canonF gs _ x d (canonF g)
          (fun g' hg' hx' => hall g' (List.mem_cons_of_mem _ hg') hx') ?_
        rw [dictGetD_group_foldl]
        simp [hx0, hall g0 (List.mem_cons_self _ _) hx0]
      · have hgs : g ∈ gs := by
          rcases List.mem_cons.mp hg with rfl | h
          · exact absurd hx hx0
          · exact h
        exact ih _ x d g hgs hx
          (fun g' hg' hx' => hall g' (List.mem_cons_of_mem _ hg') hx')

theorem pairwise_mem_cases {α : Type} {R : α → α → Prop} {l : List α}
    (h : l.Pairwise R) {a b : α} (ha : a ∈ l) (hb : b ∈ l) :
    a = b ∨ R a b ∨ R b a := by
  induction l with
  | nil => cases ha
  | cons x xs ih =>
      rw [List.pairwise_cons] at h
      rcases List.mem_cons.mp ha with rfl | ha2
      · rcases List.mem_cons.mp hb with rfl | hb2
        · exact Or.inl rfl
        · exact Or.inr (Or.inl (h.1 b hb2))
      · rcases List.mem_cons.mp hb with rfl | hb2
        · exact Or.inr (Or.inr (h.1 a ha2))
        · exact ih h.2 ha2 hb2

theorem string_append_left_cancel {p a b : String} (h : p ++ a = p ++ b) :
    a = b := by
  have hd : (p ++ a).data = (p ++ b).data := congrArg String.data h
  rw [String.data_append, String.data_append] at hd
  have := List.append_cancel_left hd
  cases a
  cases b
  exact congrArg String.mk this

/-! ### Extraction invariants -/

theorem normalizeUri_snd (uri : String) (ns : List (String × String)) :
    (normalizeUri uri ns).2 = getLocalName (normalizeUri uri ns).1 := by
  induction ns with
  | nil => rfl
  | cons p rest ih =>
      obtain ⟨pr, n⟩ := p
      simp only [normalizeUri]
      by_cases h : strStartsWith uri (pr ++ ":")
      · simp [h]
      · simp only [h]
        simpa using ih

theorem insertIfAbsent_mem {β : Type} {m : List (Term × β)} {k : Term}
    {v : β} {p : Term × β} (h : p ∈ insertIfAbsent m k v) :
    p ∈ m ∨ p = (k, v) := by
  unfold insertIfAbsent at h
  by_cases ha : m.any (fun kv => kv.1 = k)
  · rw [if_pos ha] at h
    exact Or.inl h
  · rw [if_neg ha] at h
    rcases List.mem_append.mp h with h1 | h1
    · exact Or.inl h1
    · exact Or.inr (List.mem_singleton.mp h1)

theorem dictSet_mem {β : Type} {m : List (Term × β)} {k : Term} {v : β}
    {p : Term × β} (h : p ∈ dictSet m k v) : p ∈ m ∨ p = (k, v) := by
  induction m with
  | nil =>
      simp only [dictSet, List.mem_singleton] at h
      exact Or.inr h
  | cons kv rest ih =>
      obtain ⟨k0, v0⟩ := kv
      simp only [dictSet] at h
      by_cases h0 : k0 = k
      · rw [if_pos h0] at h
        rcases List.mem_cons.mp h with rfl | h1
        · exact Or.inr (by rw [h0])
        · exact Or.inl (List.mem_cons_of_mem _ h1)
      · rw [if_neg h0] at h
        rcases List.mem_cons.mp h with rfl | h1
        · exact Or.inl (List.mem_cons_self _ _)
        · rcases ih h1 with h2 | h2
          · exact Or.inl (List.mem_cons_of_mem _ h2)
          · exact Or.inr h2

theorem dictUpdate_mem {β : Type} {adds : List (Term × β)} :
    ∀ {m : List (Term × β)} {p : Term × β}, p ∈ dictUpdate m adds →
      p ∈ m ∨ p ∈ adds := by
  induction adds with
  | nil => intro m p h; exact Or.inl h
  | cons kv rest ih =>
      intro m p h
      rcases ih h with h1 | h1
      · rcases dictSet_mem h1 with h2 | h2
        · exact Or.inl h2
        · refine Or.inr (List.mem_cons.mpr (Or.inl ?_))
          rw [h2]
      · exact Or.inr (List.mem_cons_of_mem _ h1)

/-- Every record of `extract_entity_labels` carries as `local_name` exactly
the local name of its (normalized) key. -/
theorem extractEntityLabels_localName (g : RDFGraph) :
    ∀ p ∈ extractEntityLabels g, p.2.localName = getLocalName p.1.str := by
  have hstep : ∀ (acc : List (Term × EntityInfo)) (ts : List Triple),
      (∀ p ∈ acc, p.2.localName = getLocalName p.1.str) →
      ∀ p ∈ ts.foldl (fun m t =>
        if (t.2.1 = rdfsLabel ∨ t.2.1 = rdfsComment) ∧ t.2.2.isIRI = false then
          let fl := normalizeUri t.1.str g.bindings
          insertIfAbsent m (.iri fl.1) { label := t.2.2.str, localName := fl.2 }
        else if t.1.isIRI then
          let fl := normalizeUri t.1.str g.bindings
          insertIfAbsent m (.iri fl.1) { label := fl.2, localName := fl.2 }
        else m) acc, p.2.localName = getLocalName p.1.str := by
    intro acc ts
    induction ts generalizing acc with
    | nil => intro hacc p hp; exact hacc p hp
    | cons t ts ih =>
        intro hacc p hp
        refine ih _ ?_ p hp
        intro q hq
        beta_reduce at hq
        by_cases h1 : (t.2.1 = rdfsLabel ∨ t.2.1 = rdfsComment) ∧
            t.2.2.isIRI = false
        · rw [if_pos h1] at hq
          rcases insertIfAbsent_mem hq with h2 | h2
          · exact hacc q h2
          · rw [h2]
            exact (normalizeUri_snd t.1.str g.bindings)
        · rw [if_neg h1] at hq
          by_cases h2 : t.1.isIRI
          · rw [if_pos h2] at hq
            rcases insertIfAbsent_mem hq with h3 | h3
            · exact hacc q h3
            · rw [h3]
              exact (normalizeUri_snd t.1.str g.bindings)
          · rw [if_neg h2] at hq
            exact hacc q hq
  intro p hp
  exact hstep [] g.triples (by intro q hq; cases hq) p hp

/-- The invariant lifts through the cross-chunk collection loop. -/
theorem collectEntityLabels_localName (chunks : List Chunk) :
    ∀ p ∈ collectEntityLabels chunks,
      p.2.localName = getLocalName p.1.str := by
  have hstep : ∀ (acc : List (Term × EntityInfo)) (cs : List Chunk),
      (∀ p ∈ acc, p.2.localName = getLocalName p.1.str) →
      ∀ p ∈ cs.foldl (fun acc c => dictUpdate acc (extractEntityLabels c.graph))
        acc, p.2.localName = getLocalName p.1.str := by
    intro acc cs
    induction cs generalizing acc with
    | nil => intro hacc p hp; exact hacc p hp
    | cons c cs ih =>
        intro hacc p hp
        refine ih _ ?_ p hp
        intro q hq
        rcases dictUpdate_mem hq with h1 | h1
        · exact hacc q h1
        · exact extractEntityLabels_localName c.graph q h1
  intro p hp
  exact hstep [] chunks (by intro q hq; cases hq) p hp

theorem matchEntity_false_localName {th : ℚ} {i1 i2 : EntityInfo}
    (h : matchEntity th i1 i2 = false) : i1.localName ≠ i2.localName := by
  unfold matchEntity at h
  rw [Bool.or_eq_false_iff] at h
  have h1 := h.1
  rw [decide_eq_false_iff_not] at h1
  exact h1

/-- Core of the amended C5/C8 statements, over an arbitrary entity-label
table satisfying the extraction invariant. -/
theorem entityMapping_core (th : ℚ) (entities : List (Term × EntityInfo))
    (docNs : String)
    (hln : ∀ p ∈ entities, p.2.localName = getLocalName p.1.str) :
    ((findSimilarEntities th entities).Pairwise (fun g1 g2 =>
        (∀ e ∈ g1, e ∉ g2) ∧
        createCanonicalIri g1 docNs ≠ createCanonicalIri g2 docNs)) ∧
    (∀ g ∈ findSimilarEntities th entities, ∀ e ∈ g,
        dictGetD (buildEntityMapping (findSimilarEntities th entities) docNs)
          e e = createCanonicalIri g docNs) := by
  have hpw0 := greedyGroups_pairwise (matchEntity th) entities []
  have hpw : (findSimilarEntities th entities).Pairwise (fun g1 g2 =>
      (∀ e ∈ g1, e ∉ g2) ∧
      createCanonicalIri g1 docNs ≠ createCanonicalIri g2 docNs) := by
    refine hpw0.imp ?_
    rintro g1 g2 ⟨hdisj, i1, i2, hm1, hm2, hf⟩
    refine ⟨hdisj, ?_⟩
    intro hceq
    have hinj : docNs ++ getLocalName (g1.headD dummyTerm).str =
        docNs ++ getLocalName (g2.headD dummyTerm).str :=
      Term.iri.inj hceq
    have hloc := string_append_left_cancel hinj
    have e1 := hln _ hm1
    have e2 := hln _ hm2
    exact matchEntity_false_localName hf (by rw [e1, e2]; exact hloc)
  refine ⟨hpw, ?_⟩
  intro g hg e he
  refine mapGroups_get_of_mem (fun g => createCanonicalIri g docNs)
    (findSimilarEntities th entities) [] e e g hg he ?_
  intro g' hg' he'
  rcases pairwise_mem_cases hpw hg' hg with rfl | hR | hR
  · rfl
  · exact absurd he (hR.1 e he')
  · exact absurd he' (hR.1 e he)

/-- C5 (amended): in every aggregation run the entity mapping is built from
pairwise-disjoint groups with pairwise-distinct canonical targets — so it
never sends identifiers of two different groups to the same target — and
applying either canonical mapping to an identifier outside every group is a
no-op.  (Idempotence on a canonical identifier that happens to be a member
of another group can fail, as can cross-group target distinctness for the
predicate mapping; see the counterexample.) -/
theorem mapping_invariants (chunks : List Chunk) (docNs : String) :
    ((findSimilarEntities 85 (collectEntityLabels chunks)).Pairwise
      (fun g1 g2 => (∀ e ∈ g1, e ∉ g2) ∧
        createCanonicalIri g1 docNs ≠ createCanonicalIri g2 docNs)) ∧
    (∀ g ∈ findSimilarEntities 85 (collectEntityLabels chunks), ∀ e ∈ g,
      dictGetD (buildEntityMapping
        (findSimilarEntities 85 (collectEntityLabels chunks)) docNs) e e =
        createCanonicalIri g docNs) ∧
    (∀ x : Term,
      (∀ g ∈ findSimilarEntities 85 (collectEntityLabels chunks), x ∉ g) →
      dictGetD (buildEntityMapping
        (findSimilarEntities 85 (collectEntityLabels chunks)) docNs) x x = x) ∧
    (∀ x : Term,
      (∀ g ∈ findSimilarPredicates 85 (collectPredicateInfo chunks), x ∉ g) →
      dictGetD (buildPredicateMapping
        (findSimilarPredicates 85 (collectPredicateInfo chunks)) docNs
        (collectPredicateInfo chunks)) x x = x) := by
  have hcore := entityMapping_core 85 (collectEntityLabels chunks) docNs
    (collectEntityLabels_localName chunks)
  refine ⟨hcore.1, hcore.2, ?_, ?_⟩
  · intro x hx
    exact mapGroups_get_of_not_mem
      (fun g => createCanonicalIri g docNs)
      (findSimilarEntities 85 (collectEntityLabels chunks)) [] x x hx
  · intro x hx
    exact mapGroups_get_of_not_mem
      (fun g => createCanonicalPredicate g docNs (collectPredicateInfo chunks))
      (findSimilarPredicates 85 (collectPredicateInfo chunks)) [] x x hx

/-- Counterexample to C5 as stated.  Left: in a real aggregation run over
one chunk, the canonical IRI of the second entity group equals entity e2,
a member of the first group, so applying the entity mapping to that
canonical identifier is not a no-op.  Right: the two predicate groups of
`c5PredInput` have best members sharing local name "x", so identifiers of
two different groups (the seeds p and r) are sent to the same canonical
target. -/
theorem mapping_invariants_counterexample :
    (findSimilarEntities 85 (collectEntityLabels [demoC5Chunk]) =
        [[c5E1, c5E2], [c5E3, c5E4]] ∧
      dictGetD (buildEntityMapping
          (findSimilarEntities 85 (collectEntityLabels [demoC5Chunk]))
          docNsDemo)
        (createCanonicalIri [c5E3, c5E4] docNsDemo)
        (createCanonicalIri [c5E3, c5E4] docNsDemo) ≠
        createCanonicalIri [c5E3, c5E4] docNsDemo) ∧
    (findSimilarPredicates 85 c5PredInput = [[c5P1, c5P2], [c5P3, c5P4]] ∧
      c5P1 ≠ c5P3 ∧
      dictGetD (buildPredicateMapping (findSimilarPredicates 85 c5PredInput)
          docNsDemo c5PredInput) c5P1 c5P1 =
        dictGetD (buildPredicateMapping (findSimilarPredicates 85 c5PredInput)
          docNsDemo c5PredInput) c5P3 c5P3) := by
  decide

/-- Witness for the amended C5: the no-op conjunct applied at an identifier
outside every group of the concrete one-chunk run. -/
theorem mapping_invariants_witness :
    dictGetD (buildEntityMapping
        (findSimilarEntities 85 (collectEntityLabels [demoC5Chunk]))
        docNsDemo)
      (Term.iri "http://unrelated/z") (Term.iri "http://unrelated/z") =
      Term.iri "http://unrelated/z" :=
  (mapping_invariants [demoC5Chunk] docNsDemo).2.2.1
    (Term.iri "http://unrelated/z") (by decide)

/-- Counterexample to C6 as stated: p2 (domain A) and p3 (domain B) land in
the same group — each is compatible with the domain-less seed p1 under the
code's one-sided truthiness test — although p2 and p3 both declare domains
and their domains differ. -/
theorem predicate_domain_compat_counterexample :
    findSimilarPredicates 85 c6PredInput = [[c6P1, c6P2, c6P3]] ∧
    c6P2 ∈ [c6P1, c6P2, c6P3] ∧ c6P3 ∈ [c6P1, c6P2, c6P3] ∧
    c6Info2.domain = some (Term.iri "http://o/A") ∧
    c6Info3.domain = some (Term.iri "http://o/B") ∧
    ¬ ((c6Info2.domain = none ∧ c6Info3.domain = none) ∨
       c6Info2.domain = c6Info3.domain) := by
  decide

/-- C6 (amended): a predicate joins an existing group only if both labels
are truthy, its label similarity with the group's first member (the seed)
meets the threshold, and it is domain- and range-compatible with the seed
(equal declared values, or at least one side undeclared). -/
theorem predicate_group_seed_compat (th : ℚ)
    (preds : List (Term × PredInfo)) :
    ∀ g ∈ findSimilarPredicates th preds,
      ∃ i1, (g.headD dummyTerm, i1) ∈ preds ∧
        ∀ e ∈ g.tail, ∃ i2, (e, i2) ∈ preds ∧
          optTruthy i1.label = true ∧ optTruthy i2.label = true ∧
          th ≤ fuzzRatio (strLower (i1.label.getD ""))
            (strLower (i2.label.getD "")) ∧
          domainCompatible i1 i2 = true ∧ rangeCompatible i1 i2 = true := by
  intro g hg
  obtain ⟨i1, hm1, htail⟩ :=
    greedyGroups_seed (matchPredicate th) preds [] g hg
  refine ⟨i1, hm1, ?_⟩
  intro e he
  obtain ⟨i2, hm2, hmatch⟩ := htail e he
  unfold matchPredicate at hmatch
  simp only [Bool.and_eq_true, decide_eq_true_eq] at hmatch
  exact ⟨i2, hm2, hmatch.1.1.1.1, hmatch.1.1.1.2, hmatch.1.1.2,
    hmatch.1.2, hmatch.2⟩

/-- Witness for the amended C6 at the concrete three-predicate input. -/
theorem predicate_group_seed_compat_witness :
    ∃ i1, (([c6P1, c6P2, c6P3].headD dummyTerm, i1) ∈ c6PredInput ∧
      ∀ e ∈ [c6P1, c6P2, c6P3].tail, ∃ i2, (e, i2) ∈ c6PredInput ∧
        optTruthy i1.label = true ∧ optTruthy i2.label = true ∧
        (85 : ℚ) ≤ fuzzRatio (strLower (i1.label.getD ""))
          (strLower (i2.label.getD "")) ∧
        domainCompatible i1 i2 = true ∧ rangeCompatible i1 i2 = true) :=
  predicate_group_seed_compat 85 c6PredInput [c6P1, c6P2, c6P3] (by decide)

/-- Counterexample to C8 as stated: in the run over `demoC8Chunk` the group
is [e1, e2] with e2 strictly shorter, yet the ontocast
`create_canonical_iri` derives the local name from the first member e1
("bbb"), not from the shortest member e2 ("c"). -/
theorem canonical_iri_counterexample :
    findSimilarEntities 85 (collectEntityLabels [demoC8Chunk]) =
      [[c8E1, c8E2]] ∧
    shortestMember [c8E1, c8E2] = c8E2 ∧
    c8E2.str.length < c8E1.str.length ∧
    getLocalName (createCanonicalIri [c8E1, c8E2] docNsDemo).str = "bbb" ∧
    getLocalName (shortestMember [c8E1, c8E2]).str = "c" ∧
    getLocalName (createCanonicalIri [c8E1, c8E2] docNsDemo).str ≠
      getLocalName (shortestMember [c8E1, c8E2]).str := by
  decide

/-- C8 (amended): in every aggregation run, every entity disambiguation
group has size at least 2, its canonical IRI is the document namespace
followed by the local name of the group's first member (the seed) — in
particular it lies inside the destination document namespace — and
identifiers outside every group (the size-1 "groups") are not mapped. -/
theorem canonical_iri_spec (chunks : List Chunk) (docNs : String) :
    (∀ g ∈ findSimilarEntities 85 (collectEntityLabels chunks),
      2 ≤ g.length ∧
      createCanonicalIri g docNs =
        Term.iri (docNs ++ getLocalName (g.headD dummyTerm).str) ∧
      ∃ rest, (createCanonicalIri g docNs).str = docNs ++ rest) ∧
    (∀ x : Term,
      (∀ g ∈ findSimilarEntities 85 (collectEntityLabels chunks), x ∉ g) →
      dictGetD (buildEntityMapping
        (findSimilarEntities 85 (collectEntityLabels chunks)) docNs) x x =
        x) := by
  constructor
  · intro g hg
    refine ⟨greedyGroups_length (matchEntity 85) (collectEntityLabels chunks)
      [] g hg, rfl, getLocalName (g.headD dummyTerm).str, rfl⟩
  · intro x hx
    exact mapGroups_get_of_not_mem (fun g => createCanonicalIri g docNs)
      (findSimilarEntities 85 (collectEntityLabels chunks)) [] x x hx

/-- Witness for the amended C8 at the concrete one-chunk run. -/
theorem canonical_iri_spec_witness :
    (2 ≤ ([c8E1, c8E2] : List Term).length ∧
      createCanonicalIri [c8E1, c8E2] docNsDemo =
        Term.iri (docNsDemo ++
          getLocalName (([c8E1, c8E2] : List Term).headD dummyTerm).str) ∧
      ∃ rest, (createCanonicalIri [c8E1, c8E2] docNsDemo).str =
        docNsDemo ++ rest) ∧
    dictGetD (buildEntityMapping
        (findSimilarEntities 85 (collectEntityLabels [demoC8Chunk]))
        docNsDemo)
      (Term.iri "http://unrelated/w") (Term.iri "http://unrelated/w") =
      Term.iri "http://unrelated/w" :=
  ⟨(canonical_iri_spec [demoC8Chunk] docNsDemo).1 [c8E1, c8E2] (by decide),
   (canonical_iri_spec [demoC8Chunk] docNsDemo).2
     (Term.iri "http://unrelated/w") (by decide)⟩

theorem mem_addNew (cond : Prop) [Decidable cond] (acc : List Term)
    (e x : Term) : x ∈ addNew cond acc e ↔ x ∈ acc ∨ (x = e ∧ cond) := by
  unfold addNew
  by_cases hc : cond
  · by_cases he : e ∈ acc
    · rw [if_neg (by simp [he])]
      constructor
      · exact Or.inl
      · rintro (h | ⟨rfl, _⟩)
        · exact h
        · exact he
    · rw [if_pos ⟨hc, he⟩]
      simp only [List.mem_append, List.mem_singleton]
      tauto
  · rw [if_neg (by tauto)]
    tauto

theorem nodup_addNew (cond : Prop) [Decidable cond] (acc : List Term)
    (e : Term) (h : acc.Nodup) : (addNew cond acc e).Nodup := by
  unfold addNew
  by_cases hce : cond ∧ e ∉ acc
  · rw [if_pos hce]
    simpa [List.nodup_append] using ⟨h, hce.2⟩
  · rw [if_neg hce]
    exact h

theorem foldl_mem_char {α : Type} (step : List Term → α → List Term)
    (Q : α → Term → Prop)
    (hstep : ∀ acc t x, x ∈ step acc t ↔ x ∈ acc ∨ Q t x) :
    ∀ (ts : List α) (acc : List Term) (x : Term),
      x ∈ ts.foldl step acc ↔ x ∈ acc ∨ ∃ t ∈ ts, Q t x := by
  intro ts
  induction ts with
  | nil => intro acc x; simp
  | cons t ts ih =>
      intro acc x
      rw [List.foldl_cons, ih, hstep]
      simp only [List.mem_cons]
      constructor
      · rintro ((h | h) | ⟨t', ht', h⟩)
        · exact Or.inl h
        · exact Or.inr ⟨t, Or.inl rfl, h⟩
        · exact Or.inr ⟨t', Or.inr ht', h⟩
      · rintro (h | ⟨t', (rfl | ht'), h⟩)
        · exact Or.inl (Or.inl h)
        · exact Or.inl (Or.inr h)
        · exact Or.inr ⟨t', ht', h⟩

theorem foldl_nodup_pres {α : Type} (step : List Term → α → List Term)
    (hstep : ∀ acc t, acc.Nodup → (step acc t).Nodup) :
    ∀ (ts : List α) (acc : List Term), acc.Nodup → (ts.foldl step acc).Nodup := by
  intro ts
  induction ts with
  | nil => intro acc h; exact h
  | cons t ts ih => intro acc h; exact ih (step acc t) (hstep acc t h)

theorem mem_getAllEntities (g : RDFGraph) (x : Term) :
    x ∈ getAllEntities g ↔ ∃ t ∈ g.triples,
      (x = t.1 ∧ t.1.isIRI = true) ∨ (x = t.2.2 ∧ t.2.2.isIRI = true) := by
  have := foldl_mem_char
    (fun acc t => addNew (t.2.2.isIRI = true)
      (addNew (t.1.isIRI = true) acc t.1) t.2.2)
    (fun t x => (x = t.1 ∧ t.1.isIRI = true) ∨ (x = t.2.2 ∧ t.2.2.isIRI = true))
    (by
      intro acc t x
      beta_reduce
      rw [mem_addNew, mem_addNew]
      try tauto)
    g.triples [] x
  simpa [getAllEntities] using this

theorem nodup_getAllEntities (g : RDFGraph) : (getAllEntities g).Nodup := by
  have := foldl_nodup_pres
    (fun acc t => addNew (t.2.2.isIRI = true)
      (addNew (t.1.isIRI = true) acc t.1) t.2.2)
    (by
      intro acc t h
      exact nodup_addNew _ _ _ (nodup_addNew _ _ _ h))
    g.triples [] List.nodup_nil
  simpa [getAllEntities] using this

theorem mem_adjacency (g : RDFGraph) (e x : Term) :
    x ∈ adjacency g e ↔ ∃ t ∈ g.triples,
      t.1.isIRI = true ∧ t.2.2.isIRI = true ∧
      ((t.1 = e ∧ x = t.2.2) ∨ (t.2.2 = e ∧ x = t.1)) := by
  have := foldl_mem_char
    (fun acc t => if t.1.isIRI ∧ t.2.2.isIRI then
      addNew (t.2.2 = e) (addNew (t.1 = e) acc t.2.2) t.1 else acc)
    (fun t x => t.1.isIRI = true ∧ t.2.2.isIRI = true ∧
      ((t.1 = e ∧ x = t.2.2) ∨ (t.2.2 = e ∧ x = t.1)))
    (by
      intro acc t x
      beta_reduce
      by_cases hg : t.1.isIRI ∧ t.2.2.isIRI
      · rw [if_pos hg, mem_addNew, mem_addNew]
        constructor
        · rintro ((h | h) | h)
          · exact Or.inl h
          · exact Or.inr ⟨hg.1, hg.2, Or.inl ⟨h.2, h.1⟩⟩
          · exact Or.inr ⟨hg.1, hg.2, Or.inr ⟨h.2, h.1⟩⟩
        · rintro (h | ⟨_, _, (⟨h1, h2⟩ | ⟨h1, h2⟩)⟩)
          · exact Or.inl (Or.inl h)
          · exact Or.inl (Or.inr ⟨h2, h1⟩)
          · exact Or.inr ⟨h2, h1⟩
      · rw [if_neg hg]
        constructor
        · exact fun h => Or.inl h
        · rintro (h | ⟨h1, h2, _⟩)
          · exact h
          · exact absurd ⟨h1, h2⟩ hg)
    g.triples [] x
  simpa [adjacency] using this

theorem adjacency_symm (g : RDFGraph) (e x : Term) :
    x ∈ adjacency g e ↔ e ∈ adjacency g x := by
  rw [mem_adjacency, mem_adjacency]
  constructor <;>
    · rintro ⟨t, ht, h1, h2, (⟨ha, hb⟩ | ⟨ha, hb⟩)⟩
      · exact ⟨t, ht, h1, h2, Or.inr ⟨hb.symm, ha.symm⟩⟩
      · exact ⟨t, ht, h1, h2, Or.inl ⟨hb.symm, ha.symm⟩⟩

theorem adjacency_mono {g g2 : RDFGraph}
    (hsub : ∀ t, t ∈ g.triples → t ∈ g2.triples) (e x : Term)
    (h : x ∈ adjacency g e) : x ∈ adjacency g2 e := by
  rw [mem_adjacency] at h ⊢
  obtain ⟨t, ht, hrest⟩ := h
  exact ⟨t, hsub t ht, hrest⟩

theorem adjacency_mem_entities (g : RDFGraph) (e x : Term)
    (h : x ∈ adjacency g e) : x ∈ getAllEntities g := by
  rw [mem_adjacency] at h
  rw [mem_getAllEntities]
  obtain ⟨t, ht, h1, h2, (⟨_, rfl⟩ | ⟨_, rfl⟩)⟩ := h
  · exact ⟨t, ht, Or.inr ⟨rfl, h2⟩⟩
  · exact ⟨t, ht, Or.inl ⟨rfl, h1⟩⟩

theorem entities_isIRI (g : RDFGraph) (x : Term)
    (h : x ∈ getAllEntities g) : x.isIRI = true := by
  rw [mem_getAllEntities] at h
  obtain ⟨t, _, (⟨rfl, hi⟩ | ⟨rfl, hi⟩)⟩ := h <;> exact hi

theorem reach_lift {g g2 : RDFGraph}
    (hsub : ∀ t, t ∈ g.triples → t ∈ g2.triples) {a b : Term}
    (h : Reach (adjacency g) a b) : Reach (adjacency g2) a b := by
  induction h with
  | refl => exact Relation.ReflTransGen.refl
  | tail _ hstep ih =>
      exact Relation.ReflTransGen.tail ih (adjacency_mono hsub _ _ hstep)

theorem reach_symm {g : RDFGraph} {a b : Term}
    (h : Reach (adjacency g) a b) : Reach (adjacency g) b a := by
  induction h with
  | refl => exact Relation.ReflTransGen.refl
  | tail _ hstep ih =>
      refine Relation.ReflTransGen.trans ?_ ih
      exact Relation.ReflTransGen.single ((adjacency_symm g _ _).mp hstep)

theorem bfsAux_succ_cons (adj : Term → List Term) (f : Nat) (cur : Term)
    (q visited comp : List Term) :
    bfsAux adj (f + 1) (cur :: q) visited comp =
      if cur ∈ visited then bfsAux adj f q visited comp
      else bfsAux adj f (q ++ (adj cur).filter (fun n => n ∉ visited))
        (visited ++ [cur]) (comp ++ [cur]) := rfl

theorem bfs_decomp (adj : Term → List Term) :
    ∀ (fuel : Nat) (queue visited comp : List Term),
      ∃ d, (bfsAux adj fuel queue visited comp).1 = visited ++ d ∧
        (bfsAux adj fuel queue visited comp).2 = comp ++ d := by
  intro fuel
  induction fuel with
  | zero =>
      intro queue visited comp
      exact ⟨[], by simp [bfsAux], by simp [bfsAux]⟩
  | succ f ih =>
      intro queue visited comp
      cases queue with
      | nil => exact ⟨[], by simp [bfsAux], by simp [bfsAux]⟩
      | cons cur q =>
          rw [bfsAux_succ_cons]
          by_cases hc : cur ∈ visited
          · rw [if_pos hc]
            exact ih q visited comp
          · rw [if_neg hc]
            obtain ⟨d, h1, h2⟩ := ih
              (q ++ (adj cur).filter (fun n => n ∉ visited))
              (visited ++ [cur]) (comp ++ [cur])
            exact ⟨cur :: d, by rw [h1]; simp, by rw [h2]; simp⟩

theorem bfs_reach (adj : Term → List Term) (s : Term) :
    ∀ (fuel : Nat) (queue visited comp : List Term),
      (∀ q ∈ queue, Reach adj s q) → (∀ x ∈ comp, Reach adj s x) →
      ∀ x ∈ (bfsAux adj fuel queue visited comp).2, Reach adj s x := by
  intro fuel
  induction fuel with
  | zero => intro queue visited comp _ hcp x hx; exact hcp x hx
  | succ f ih =>
      intro queue visited comp hq hcp
      cases queue with
      | nil => exact fun x hx => hcp x hx
      | cons cur q =>
          rw [bfsAux_succ_cons]
          by_cases hc : cur ∈ visited
          · rw [if_pos hc]
            exact ih q visited comp
              (fun a ha => hq a (List.mem_cons_of_mem _ ha)) hcp
          · rw [if_neg hc]
            refine ih _ _ _ ?_ ?_
            · intro a ha
              rcases List.mem_append.mp ha with h | h
              · exact hq a (List.mem_cons_of_mem _ h)
              · exact Relation.ReflTransGen.tail
                  (hq cur (List.mem_cons_self _ _)) (List.mem_filter.mp h).1
            · intro a ha
              rcases List.mem_append.mp ha with h | h
              · exact hcp a h
              · rw [List.mem_singleton] at h
                subst h
                exact hq _ (List.mem_cons_self _ _)

theorem sum_filter_remove (w : Term → Nat) :
    ∀ (univ : List Term), univ.Nodup →
      ∀ (visited : List Term) (cur : Term), cur ∈ univ → cur ∉ visited →
      ((univ.filter (fun u => u ∉ visited)).map w).sum =
        ((univ.filter (fun u => u ∉ visited ++ [cur])).map w).sum + w cur := by
  intro univ
  induction univ with
  | nil => intro _ _ cur hcu; cases hcu
  | cons a us ih =>
      intro hnd visited cur hcu hcv
      rw [List.nodup_cons] at hnd
      rcases List.mem_cons.mp hcu with rfl | hcu2
      · rw [List.filter_cons, List.filter_cons]
        have h1 : (decide (cur ∉ visited)) = true := by simp [hcv]
        have h2 : (decide (cur ∉ visited ++ [cur])) = false := by simp
        rw [h1, h2]
        simp only [if_pos, if_neg, Bool.false_eq_true, not_false_iff,
          List.map_cons, List.sum_cons]
        have hcongr : us.filter (fun u => u ∉ visited) =
            us.filter (fun u => u ∉ visited ++ [cur]) := by
          apply List.filter_congr
          intro x hx
          have hxa : x ≠ cur := fun he => hnd.1 (he ▸ hx)
          simp [List.mem_append, hxa]
        rw [hcongr]
        omega
      · have hane : a ≠ cur := fun he => hnd.1 (he ▸ hcu2)
        rw [List.filter_cons, List.filter_cons]
        have hsame : (decide (a ∉ visited ++ [cur])) = (decide (a ∉ visited)) := by
          simp [List.mem_append, hane]
        rw [hsame]
        by_cases hav : a ∉ visited
        · have : (decide (a ∉ visited)) = true := by simp [hav]
          rw [this]
          simp only [if_pos, List.map_cons, List.sum_cons]
          rw [ih hnd.2 visited cur hcu2 hcv]
          omega
        · have : (decide (a ∉ visited)) = false := by simp at hav; simp [hav]
          rw [this]
          simp only [Bool.false_eq_true, if_neg, not_false_iff]
          exact ih hnd.2 visited cur hcu2 hcv

theorem bfs_main (adj : Term → List Term) (univ : List Term)
    (hadj : ∀ e x, x ∈ adj e → x ∈ univ) (hnd : univ.Nodup) :
    ∀ (fuel : Nat) (queue visited comp : List Term),
      (∀ q ∈ queue, q ∈ univ) →
      (∀ v ∈ visited, ∀ n ∈ adj v, n ∈ visited ∨ n ∈ queue) →
      bfsMeasure adj univ queue visited ≤ fuel →
      (∀ q ∈ queue, q ∈ (bfsAux adj fuel queue visited comp).1) ∧
      (∀ v ∈ visited, v ∈ (bfsAux adj fuel queue visited comp).1) ∧
      (∀ v ∈ (bfsAux adj fuel queue visited comp).1, ∀ n ∈ adj v,
        n ∈ (bfsAux adj fuel queue visited comp).1) := by
  intro fuel
  induction fuel with
  | zero =>
      intro queue visited comp _ hinv2 hm
      have hq0 : queue = [] := by
        cases queue with
        | nil => rfl
        | cons a q => simp [bfsMeasure] at hm
      subst hq0
      refine ⟨fun q hq => absurd hq (List.not_mem_nil q), fun v hv => hv, ?_⟩
      intro v hv n hn
      rcases hinv2 v hv n hn with h | h
      · exact h
      · cases h
  | succ f ih =>
      intro queue visited comp hinv1 hinv2 hm
      cases queue with
      | nil =>
          refine ⟨fun q hq => absurd hq (List.not_mem_nil q), fun v hv => hv, ?_⟩
          intro v hv n hn
          rcases hinv2 v hv n hn with h | h
          · exact h
          · cases h
      | cons cur q =>
          rw [bfsAux_succ_cons]
          by_cases hc : cur ∈ visited
          · rw [if_pos hc]
            have hrec := ih q visited comp
              (fun a ha => hinv1 a (List.mem_cons_of_mem _ ha))
              (by
                intro v hv n hn
                rcases hinv2 v hv n hn with h | h
                · exact Or.inl h
                · rcases List.mem_cons.mp h with rfl | h2
                  · exact Or.inl hc
                  · exact Or.inr h2)
              (by
                simp only [bfsMeasure, List.length_cons] at hm ⊢
                omega)
            refine ⟨?_, hrec.2.1, hrec.2.2⟩
            intro x hx
            rcases List.mem_cons.mp hx with rfl | hx2
            · exact hrec.2.1 x hc
            · exact hrec.1 x hx2
          · rw [if_neg hc]
            have hcu : cur ∈ univ := hinv1 cur (List.mem_cons_self _ _)
            have hmeq := sum_filter_remove (fun u => 1 + (adj u).length)
              univ hnd visited cur hcu hc
            have hrec := ih (q ++ (adj cur).filter (fun n => n ∉ visited))
              (visited ++ [cur]) (comp ++ [cur])
              (by
                intro a ha
                rcases List.mem_append.mp ha with h | h
                · exact hinv1 a (List.mem_cons_of_mem _ h)
                · exact hadj cur a (List.mem_filter.mp h).1)
              (by
                intro v hv n hn
                rcases List.mem_append.mp hv with hv1 | hv1
                · rcases hinv2 v hv1 n hn with h | h
                  · exact Or.inl (List.mem_append_left _ h)
                  · rcases List.mem_cons.mp h with rfl | h2
                    · exact Or.inl (List.mem_append_right _
                        (List.mem_singleton.mpr rfl))
                    · exact Or.inr (List.mem_append_left _ h2)
                · rw [List.mem_singleton] at hv1
                  subst hv1
                  by_cases hnv : n ∈ visited
                  · exact Or.inl (List.mem_append_left _ hnv)
                  · refine Or.inr (List.mem_append_right _ ?_)
                    rw [List.mem_filter]
                    exact ⟨hn, by simp [hnv]⟩)
              (by
                have hlen : ((adj cur).filter
                    (fun n => n ∉ visited)).length ≤ (adj cur).length :=
                  List.length_filter_le _ _
                beta_reduce at hmeq
                simp only [bfsMeasure, List.length_cons, List.length_append]
                  at hm ⊢
                omega)
            refine ⟨?_, ?_, hrec.2.2⟩
            · intro x hx
              rcases List.mem_cons.mp hx with rfl | hx2
              · exact hrec.2.1 x
                  (List.mem_append_right _ (List.mem_singleton.mpr rfl))
              · exact hrec.1 x (List.mem_append_left _ hx2)
            · intro v hv
              exact hrec.2.1 v (List.mem_append_left _ hv)

theorem fccLoop_cons (adj : Term → List Term) (fuel : Nat) (e : Term)
    (es visited : List Term) :
    fccLoop adj fuel (e :: es) visited =
      if e ∈ visited then fccLoop adj fuel es visited
      else if (bfsAux adj fuel [e] visited []).2 = []
        then fccLoop adj fuel es (bfsAux adj fuel [e] visited []).1
        else (bfsAux adj fuel [e] visited []).2 ::
          fccLoop adj fuel es (bfsAux adj fuel [e] visited []).1 := rfl

theorem fccLoop_nonempty (adj : Term → List Term) (fuel : Nat) :
    ∀ (es visited : List Term), ∀ c ∈ fccLoop adj fuel es visited, c ≠ [] := by
  intro es
  induction es with
  | nil => intro visited c hc; cases hc
  | cons e es ih =>
      intro visited c hc
      rw [fccLoop_cons] at hc
      by_cases h1 : e ∈ visited
      · rw [if_pos h1] at hc
        exact ih visited c hc
      · rw [if_neg h1] at hc
        by_cases h2 : (bfsAux adj fuel [e] visited []).2 = []
        · rw [if_pos h2] at hc
          exact ih _ c hc
        · rw [if_neg h2] at hc
          rcases List.mem_cons.mp hc with rfl | hc2
          · exact h2
          · exact ih _ c hc2

theorem fccLoop_reach (adj : Term → List Term) (fuel : Nat) :
    ∀ (es visited : List Term), ∀ c ∈ fccLoop adj fuel es visited,
      ∃ s, ∀ x ∈ c, Reach adj s x := by
  intro es
  induction es with
  | nil => intro visited c hc; cases hc
  | cons e es ih =>
      intro visited c hc
      rw [fccLoop_cons] at hc
      by_cases h1 : e ∈ visited
      · rw [if_pos h1] at hc
        exact ih visited c hc
      · rw [if_neg h1] at hc
        by_cases h2 : (bfsAux adj fuel [e] visited []).2 = []
        · rw [if_pos h2] at hc
          exact ih _ c hc
        · rw [if_neg h2] at hc
          rcases List.mem_cons.mp hc with rfl | hc2
          · refine ⟨e, ?_⟩
            refine bfs_reach adj e fuel [e] visited [] ?_ ?_
            · intro q hq
              rw [List.mem_singleton] at hq
              subst hq
              exact Relation.ReflTransGen.refl
            · intro x hx
              cases hx
          · exact ih _ c hc2

theorem fccLoop_skip_all (adj : Term → List Term) (fuel : Nat) :
    ∀ (es visited : List Term), (∀ e ∈ es, e ∈ visited) →
      fccLoop adj fuel es visited = [] := by
  intro es
  induction es with
  | nil => intro visited _; rfl
  | cons e es ih =>
      intro visited h
      rw [fccLoop_cons, if_pos (h e (List.mem_cons_self _ _))]
      exact ih visited (fun x hx => h x (List.mem_cons_of_mem _ hx))

theorem sum_map_filter_le (w : Term → Nat) (p : Term → Bool) :
    ∀ (univ : List Term),
      ((univ.filter p).map w).sum ≤ (univ.map w).sum := by
  intro univ
  induction univ with
  | nil => simp
  | cons a us ih =>
      rw [List.filter_cons]
      by_cases hp : p a
      · rw [if_pos hp]
        simp only [List.map_cons, List.sum_cons]
        omega
      · rw [if_neg hp]
        simp only [List.map_cons, List.sum_cons]
        omega

theorem reach_closed_subset (adj : Term → List Term) (S : List Term)
    (hcl : ∀ v ∈ S, ∀ n ∈ adj v, n ∈ S) {a b : Term} (ha : a ∈ S)
    (hr : Reach adj a b) : b ∈ S := by
  induction hr with
  | refl => exact ha
  | tail _ hstep ih => exact hcl _ ih _ hstep

theorem pyMaxBy_foldl_mem {α : Type} (f : α → Nat) :
    ∀ (xs : List α) (b : α),
      xs.foldl (fun b y => if f b < f y then y else b) b ∈ b :: xs := by
  intro xs
  induction xs with
  | nil => intro b; exact List.mem_singleton.mpr rfl
  | cons y ys ih =>
      intro b
      rw [List.foldl_cons]
      by_cases hf : f b < f y
      · rw [if_pos hf]
        rcases List.mem_cons.mp (ih y) with h | h
        · rw [h]
          exact List.mem_cons_of_mem _ (List.mem_cons_self _ _)
        · exact List.mem_cons_of_mem _ (List.mem_cons_of_mem _ h)
      · rw [if_neg hf]
        rcases List.mem_cons.mp (ih b) with h | h
        · rw [h]
          exact List.mem_cons_self _ _
        · exact List.mem_cons_of_mem _ (List.mem_cons_of_mem _ h)

theorem pyMaxBy_mem {α : Type} (f : α → Nat) {l : List α} {x : α}
    (h : pyMaxBy f l = some x) : x ∈ l := by
  cases l with
  | nil => cases h
  | cons a xs =>
      simp only [pyMaxBy, Option.some.injEq] at h
      subst h
      exact pyMaxBy_foldl_mem f xs a

theorem pyMaxBy_some_mem {α : Type} (f : α → Nat) {l : List α}
    (h : l ≠ []) : ∃ x, pyMaxBy f l = some x ∧ x ∈ l := by
  cases l with
  | nil => exact absurd rfl h
  | cons a xs => exact ⟨_, rfl, pyMaxBy_foldl_mem f xs a⟩

theorem chooseRep_mem {component : List Term} (g : RDFGraph)
    (h : component ≠ []) :
    ∃ r, chooseRepresentativeEntity component g = some r ∧ r ∈ component := by
  unfold chooseRepresentativeEntity
  rw [if_neg h]
  by_cases hfil : component.filter (fun e =>
      g.triples.any (fun t => t.1 = e ∧
        (t.2.1 = rdfsLabel ∨ t.2.1 = rdfsComment))) = []
  · rw [if_pos hfil]
    exact pyMaxBy_some_mem (entityDegree g) h
  · rw [if_neg hfil]
    obtain ⟨x, hx, hmem⟩ := pyMaxBy_some_mem (entityDegree g) hfil
    exact ⟨x, hx, List.mem_of_mem_filter hmem⟩

theorem chooseRep_some_mem {component : List Term} {g : RDFGraph} {r : Term}
    (h : chooseRepresentativeEntity component g = some r) : r ∈ component := by
  unfold chooseRepresentativeEntity at h
  by_cases hc : component = []
  · rw [if_pos hc] at h
    cases h
  · rw [if_neg hc] at h
    by_cases hfil : component.filter (fun e =>
        g.triples.any (fun t => t.1 = e ∧
          (t.2.1 = rdfsLabel ∨ t.2.1 = rdfsComment))) = []
    · rw [if_pos hfil] at h
      exact pyMaxBy_mem _ h
    · rw [if_neg hfil] at h
      exact List.mem_of_mem_filter (pyMaxBy_mem _ h)

theorem hubStep_mono (hub : Term) (g : RDFGraph) (comp : List Term)
    (t : Triple) (h : t ∈ g.triples) : t ∈ (hubStep hub g comp).triples := by
  unfold hubStep
  cases hrep : chooseRepresentativeEntity comp g with
  | none => exact h
  | some rep =>
      rw [RDFGraph.mem_add, RDFGraph.mem_add]
      exact Or.inl (Or.inl h)

theorem hubStep_char (hub : Term) (g : RDFGraph) (comp : List Term)
    (t : Triple) (h : t ∈ (hubStep hub g comp).triples) :
    t ∈ g.triples ∨ ∃ r ∈ comp,
      t = (hub, schemaHasPart, r) ∨ t = (r, provWasQuotedFrom, hub) := by
  unfold hubStep at h
  cases hrep : chooseRepresentativeEntity comp g with
  | none =>
      rw [hrep] at h
      exact Or.inl h
  | some rep =>
      rw [hrep] at h
      rw [RDFGraph.mem_add, RDFGraph.mem_add] at h
      rcases h with (h | h) | h
      · exact Or.inl h
      · exact Or.inr ⟨rep, chooseRep_some_mem hrep, Or.inl h⟩
      · exact Or.inr ⟨rep, chooseRep_some_mem hrep, Or.inr h⟩

theorem hubFold_mono (hub : Term) :
    ∀ (comps : List (List Term)) (gacc : RDFGraph) (t : Triple),
      t ∈ gacc.triples → t ∈ (comps.foldl (hubStep hub) gacc).triples := by
  intro comps
  induction comps with
  | nil => intro gacc t h; exact h
  | cons c cs ih =>
      intro gacc t h
      exact ih (hubStep hub gacc c) t (hubStep_mono hub gacc c t h)

theorem hubFold_char (hub : Term) :
    ∀ (comps : List (List Term)) (gacc : RDFGraph) (t : Triple),
      t ∈ (comps.foldl (hubStep hub) gacc).triples →
      t ∈ gacc.triples ∨ ∃ r, (∃ c ∈ comps, r ∈ c) ∧
        (t = (hub, schemaHasPart, r) ∨ t = (r, provWasQuotedFrom, hub)) := by
  intro comps
  induction comps with
  | nil => intro gacc t h; exact Or.inl h
  | cons c cs ih =>
      intro gacc t h
      rcases ih (hubStep hub gacc c) t h with h1 | ⟨r, ⟨c', hc', hr⟩, hf⟩
      · rcases hubStep_char hub gacc c t h1 with h2 | ⟨r, hr, hf⟩
        · exact Or.inl h2
        · exact Or.inr ⟨r, ⟨c, List.mem_cons_self _ _, hr⟩, hf⟩
      · exact Or.inr ⟨r, ⟨c', List.mem_cons_of_mem _ hc', hr⟩, hf⟩

theorem hubFold_bridges (hub : Term) :
    ∀ (comps : List (List Term)) (gacc : RDFGraph),
      (∀ c ∈ comps, c ≠ []) → ∀ c ∈ comps,
      ∃ r, r ∈ c ∧
        (hub, schemaHasPart, r) ∈ (comps.foldl (hubStep hub) gacc).triples := by
  intro comps
  induction comps with
  | nil => intro gacc _ c hc; cases hc
  | cons c0 cs ih =>
      intro gacc hne c hc
      rcases List.mem_cons.mp hc with rfl | hc2
      · obtain ⟨r, hrep, hrc⟩ := chooseRep_mem gacc
          (hne c (List.mem_cons_self _ _))
        refine ⟨r, hrc, ?_⟩
        apply hubFold_mono hub cs (hubStep hub gacc c)
        unfold hubStep
        rw [hrep, RDFGraph.mem_add, RDFGraph.mem_add]
        exact Or.inl (Or.inr rfl)
      · exact ih (hubStep hub gacc c0)
          (fun c' hc' => hne c' (List.mem_cons_of_mem _ hc')) c hc2

theorem fcc_covers (adj : Term → List Term) (univ : List Term)
    (hadj : ∀ e x, x ∈ adj e → x ∈ univ) (hnd : univ.Nodup) (fuel : Nat)
    (hfuel : 1 + (univ.map (fun u => 1 + (adj u).length)).sum ≤ fuel) :
    ∀ (es visited : List Term), (∀ e ∈ es, e ∈ univ) →
      (∀ v ∈ visited, ∀ n ∈ adj v, n ∈ visited) →
      ∀ e ∈ es, e ∈ visited ∨ ∃ c ∈ fccLoop adj fuel es visited, e ∈ c := by
  intro es
  induction es with
  | nil => intro visited _ _ e he; cases he
  | cons e0 es ih =>
      intro visited hsub hcl e he
      rw [fccLoop_cons]
      by_cases h1 : e0 ∈ visited
      · rw [if_pos h1]
        rcases List.mem_cons.mp he with rfl | he2
        · exact Or.inl h1
        · exact ih visited (fun a ha => hsub a (List.mem_cons_of_mem _ ha))
            hcl e he2
      · rw [if_neg h1]
        have hmain := bfs_main adj univ hadj hnd fuel [e0] visited []
          (by
            intro q hq
            rw [List.mem_singleton] at hq
            subst hq
            exact hsub q (List.mem_cons_self _ _))
          (fun v hv n hn => Or.inl (hcl v hv n hn))
          (by
            have := sum_map_filter_le (fun u => 1 + (adj u).length)
              (fun u => decide (u ∉ visited)) univ
            simp only [bfsMeasure, List.length_singleton]
            omega)
        obtain ⟨d, hd1, hd2⟩ := bfs_decomp adj fuel [e0] visited []
        have he0r : e0 ∈ (bfsAux adj fuel [e0] visited []).1 :=
          hmain.1 e0 (List.mem_singleton.mpr rfl)
        have he0d : e0 ∈ d := by
          rw [hd1] at he0r
          rcases List.mem_append.mp he0r with h2 | h2
          · exact absurd h2 h1
          · exact h2
        have hr2 : (bfsAux adj fuel [e0] visited []).2 = d := by
          rw [hd2]
          rfl
        have hr2ne : (bfsAux adj fuel [e0] visited []).2 ≠ [] := by
          rw [hr2]
          intro hd
          rw [hd] at he0d
          cases he0d
        rw [if_neg hr2ne]
        rcases List.mem_cons.mp he with rfl | he2
        · refine Or.inr ⟨_, List.mem_cons_self _ _, ?_⟩
          rw [hr2]
          exact he0d
        · have ihr := ih (bfsAux adj fuel [e0] visited []).1
            (fun a ha => hsub a (List.mem_cons_of_mem _ ha))
            hmain.2.2 e he2
          rcases ihr with h2 | ⟨c, hc, hec⟩
          · rw [hd1] at h2
            rcases List.mem_append.mp h2 with h3 | h3
            · exact Or.inl h3
            · refine Or.inr ⟨(bfsAux adj fuel [e0] visited []).2,
                List.mem_cons_self _ _, ?_⟩
              rw [hr2]
              exact h3
          · exact Or.inr ⟨c, List.mem_cons_of_mem _ hc, hec⟩

theorem components_cover (g : RDFGraph) :
    ∀ x ∈ getAllEntities g, ∃ c ∈ findConnectedComponents g, x ∈ c := by
  intro x hx
  have := fcc_covers (adjacency g) (getAllEntities g)
    (fun e y hy => adjacency_mem_entities g e y hy) (nodup_getAllEntities g)
    (bfsFuel g) (le_refl _) (getAllEntities g) [] (fun e he => he)
    (by intro v hv; cases hv) x hx
  rcases this with h | h
  · cases h
  · exact h

theorem components_sub_entities (g : RDFGraph) :
    ∀ c ∈ findConnectedComponents g, ∀ x ∈ c, x ∈ getAllEntities g := by
  have hbfs : ∀ (fuel : Nat) (queue visited comp : List Term),
      (∀ q ∈ queue, q ∈ getAllEntities g) →
      (∀ x ∈ comp, x ∈ getAllEntities g) →
      ∀ x ∈ (bfsAux (adjacency g) fuel queue visited comp).2,
        x ∈ getAllEntities g := by
    intro fuel
    induction fuel with
    | zero => intro queue visited comp _ hcp x hx; exact hcp x hx
    | succ f ih =>
        intro queue visited comp hq hcp
        cases queue with
        | nil => exact fun x hx => hcp x hx
        | cons cur q =>
            rw [bfsAux_succ_cons]
            by_cases hc : cur ∈ visited
            · rw [if_pos hc]
              exact ih q visited comp
                (fun a ha => hq a (List.mem_cons_of_mem _ ha)) hcp
            · rw [if_neg hc]
              refine ih _ _ _ ?_ ?_
              · intro a ha
                rcases List.mem_append.mp ha with h | h
                · exact hq a (List.mem_cons_of_mem _ h)
                · exact adjacency_mem_entities g cur a (List.mem_filter.mp h).1
              · intro a ha
                rcases List.mem_append.mp ha with h | h
                · exact hcp a h
                · rw [List.mem_singleton] at h
                  subst h
                  exact hq _ (List.mem_cons_self _ _)
  have hloop : ∀ (es visited : List Term),
      (∀ e ∈ es, e ∈ getAllEntities g) →
      ∀ c ∈ fccLoop (adjacency g) (bfsFuel g) es visited, ∀ x ∈ c,
        x ∈ getAllEntities g := by
    intro es
    induction es with
    | nil => intro visited _ c hc; cases hc
    | cons e es ih =>
        intro visited hsub c hc
        rw [fccLoop_cons] at hc
        by_cases h1 : e ∈ visited
        · rw [if_pos h1] at hc
          exact ih visited (fun a ha => hsub a (List.mem_cons_of_mem _ ha)) c hc
        · rw [if_neg h1] at hc
          by_cases h2 : (bfsAux (adjacency g) (bfsFuel g) [e] visited []).2 = []
          · rw [if_pos h2] at hc
            exact ih _ (fun a ha => hsub a (List.mem_cons_of_mem _ ha)) c hc
          · rw [if_neg h2] at hc
            rcases List.mem_cons.mp hc with rfl | hc2
            · exact hbfs (bfsFuel g) [e] visited []
                (by
                  intro q hq
                  rw [List.mem_singleton] at hq
                  subst hq
                  exact hsub _ (List.mem_cons_self _ _))
                (by intro x hx; cases hx)
            · exact ih _ (fun a ha => hsub a (List.mem_cons_of_mem _ ha)) c hc2
  exact hloop (getAllEntities g) [] (fun e he => he)

/-- A graph in which every entity is reachable from a hub entity has
exactly one connected component. -/
theorem fcc_single_of_hub (gf : RDFGraph) (hub : Term)
    (hhubent : hub ∈ getAllEntities gf)
    (hreach : ∀ x ∈ getAllEntities gf, Reach (adjacency gf) hub x) :
    (findConnectedComponents gf).length = 1 := by
  cases huniv : getAllEntities gf with
  | nil =>
      rw [huniv] at hhubent
      cases hhubent
  | cons e0 es =>
      have hfe0 : e0 ∈ getAllEntities gf := by
        rw [huniv]
        exact List.mem_cons_self _ _
      unfold findConnectedComponents
      rw [huniv, fccLoop_cons, if_neg (List.not_mem_nil e0)]
      have hmain := bfs_main (adjacency gf) (getAllEntities gf)
        (fun e y hy => adjacency_mem_entities gf e y hy)
        (nodup_getAllEntities gf) (bfsFuel gf) [e0] [] []
        (by
          intro q hq
          rw [List.mem_singleton] at hq
          subst hq
          exact hfe0)
        (by intro v hv; cases hv)
        (by
          have hfil : (getAllEntities gf).filter
              (fun u => u ∉ ([] : List Term)) = getAllEntities gf := by
            simp
          simp only [bfsMeasure, List.length_singleton, hfil, bfsFuel]
          omega)
      obtain ⟨d, hd1, hd2⟩ := bfs_decomp (adjacency gf) (bfsFuel gf) [e0] [] []
      have hr1 : (bfsAux (adjacency gf) (bfsFuel gf) [e0] [] []).1 = d := by
        rw [hd1]
        rfl
      have hr2 : (bfsAux (adjacency gf) (bfsFuel gf) [e0] [] []).2 = d := by
        rw [hd2]
        rfl
      have he0r : e0 ∈ (bfsAux (adjacency gf) (bfsFuel gf) [e0] [] []).1 :=
        hmain.1 e0 (List.mem_singleton.mpr rfl)
      have hr2ne : (bfsAux (adjacency gf) (bfsFuel gf) [e0] [] []).2 ≠ [] := by
        rw [hr2]
        intro hdn
        rw [hr1, hdn] at he0r
        cases he0r
      rw [if_neg hr2ne]
      have hall : ∀ x ∈ getAllEntities gf,
          x ∈ (bfsAux (adjacency gf) (bfsFuel gf) [e0] [] []).1 := by
        intro x hx
        have hre0x : Reach (adjacency gf) e0 x :=
          Relation.ReflTransGen.trans (reach_symm (hreach e0 hfe0))
            (hreach x hx)
        exact reach_closed_subset (adjacency gf) _ hmain.2.2 he0r hre0x
      have hskip : fccLoop (adjacency gf) (bfsFuel gf) es
          (bfsAux (adjacency gf) (bfsFuel gf) [e0] [] []).1 = [] := by
        apply fccLoop_skip_all
        intro e he
        exact hall e (by rw [huniv]; exact List.mem_cons_of_mem _ he)
      rw [hskip]
      rfl

/-- In the hub-connected rebuild of `g`, every entity is reachable from
the hub. -/
theorem reach_hub_all (g : RDFGraph) (hub tc : Term) (g1 : RDFGraph)
    (comps : List (List Term))
    (hhub : hub.isIRI = true) (htc : tc.isIRI = true)
    (hcomps : comps = findConnectedComponents g)
    (hg1mem : ∀ t : Triple, t ∈ g1.triples ↔ t ∈ g.triples ∨
      t = (hub, rdfType, tc) ∨
      t = (hub, rdfsLabel, Term.lit "Document chunk")) :
    ∀ x ∈ getAllEntities (comps.foldl (hubStep hub) g1),
      Reach (adjacency (comps.foldl (hubStep hub) g1)) hub x := by
  intro x hx
  set gf := comps.foldl (hubStep hub) g1 with hgf
  -- facts about the final graph
  have hsubg : ∀ t : Triple, t ∈ g.triples → t ∈ gf.triples := by
    intro t ht
    exact hubFold_mono hub comps g1 t ((hg1mem t).mpr (Or.inl ht))
  have htype : (hub, rdfType, tc) ∈ gf.triples :=
    hubFold_mono hub comps g1 _ ((hg1mem _).mpr (Or.inr (Or.inl rfl)))
  have hbridges : ∀ c ∈ comps, ∃ r, r ∈ c ∧
      (hub, schemaHasPart, r) ∈ gf.triples := by
    refine hubFold_bridges hub comps g1 ?_
    intro c hc
    rw [hcomps] at hc
    exact fccLoop_nonempty (adjacency g) (bfsFuel g) (getAllEntities g) [] c hc
  have hcompIRI : ∀ c ∈ comps, ∀ y ∈ c, y.isIRI = true := by
    intro c hc y hy
    rw [hcomps] at hc
    exact entities_isIRI g y (components_sub_entities g c hc y hy)
  -- reaching any member of a component of g
  have hcompreach : ∀ c ∈ comps, ∀ y ∈ c, Reach (adjacency gf) hub y := by
    intro c hc y hy
    obtain ⟨r, hrc, hbr⟩ := hbridges c hc
    obtain ⟨s, hs⟩ := by
      rw [hcomps] at hc
      exact fccLoop_reach (adjacency g) (bfsFuel g) (getAllEntities g) [] c hc
    have hry : Reach (adjacency g) r y :=
      Relation.ReflTransGen.trans (reach_symm (hs r hrc)) (hs y hy)
    have hry2 : Reach (adjacency gf) r y := reach_lift hsubg hry
    have hhubr : r ∈ adjacency gf hub := by
      rw [mem_adjacency]
      exact ⟨(hub, schemaHasPart, r), hbr, hhub, hcompIRI c hc r hrc,
        Or.inl ⟨rfl, rfl⟩⟩
    exact Relation.ReflTransGen.trans (Relation.ReflTransGen.single hhubr) hry2
  -- classify the statement that makes x an entity
  rw [mem_getAllEntities] at hx
  obtain ⟨t, ht, hcase⟩ := hx
  rcases hubFold_char hub comps g1 t ht with h1 | ⟨r, ⟨c, hc, hrc⟩, hf⟩
  · rcases (hg1mem t).mp h1 with h2 | h2 | h2
    · -- a statement of the original graph
      have hxg : x ∈ getAllEntities g := by
        rw [mem_getAllEntities]
        exact ⟨t, h2, hcase⟩
      obtain ⟨c, hc, hxc⟩ := components_cover g x hxg
      rw [← hcomps] at hc
      exact hcompreach c hc x hxc
    · -- the hub's type statement
      subst h2
      rcases hcase with ⟨rfl, _⟩ | ⟨rfl, _⟩
      · exact Relation.ReflTransGen.refl
      · refine Relation.ReflTransGen.single ?_
        rw [mem_adjacency]
        exact ⟨_, htype, hhub, htc, Or.inl ⟨rfl, rfl⟩⟩
    · -- the hub's label statement (the object is a literal)
      subst h2
      rcases hcase with ⟨rfl, _⟩ | ⟨rfl, hlit⟩
      · exact Relation.ReflTransGen.refl
      · cases hlit
  · -- a bridge statement
    have hrIRI : r.isIRI = true := hcompIRI c hc r hrc
    have hbr2 : t ∈ gf.triples := ht
    rcases hf with rfl | rfl
    · rcases hcase with ⟨rfl, _⟩ | ⟨rfl, _⟩
      · exact Relation.ReflTransGen.refl
      · refine Relation.ReflTransGen.single ?_
        rw [mem_adjacency]
        exact ⟨_, hbr2, hhub, hrIRI, Or.inl ⟨rfl, rfl⟩⟩
    · rcases hcase with ⟨rfl, _⟩ | ⟨rfl, _⟩
      · refine Relation.ReflTransGen.single ?_
        rw [mem_adjacency]
        exact ⟨_, hbr2, hrIRI, hhub, Or.inr ⟨rfl, rfl⟩⟩
      · exact Relation.ReflTransGen.refl

/-- C4: whenever `find_connected_components` returns a non-empty component
list for G, running it again on `make_graph_connected`'s result yields
exactly one connected component. -/
theorem repair_single_component (g : RDFGraph) (domain chunkIri : String)
    (h : findConnectedComponents g ≠ []) :
    (findConnectedComponents (makeGraphConnected g domain chunkIri)).length
      = 1 := by
  by_cases hle : (findConnectedComponents g).length ≤ 1
  · have hg : makeGraphConnected g domain chunkIri = g := by
      unfold makeGraphConnected
      rw [if_pos hle]
    rw [hg]
    have h1 : 0 < (findConnectedComponents g).length := List.length_pos.mpr h
    omega
  · have hcg : ∀ t : Triple,
        t ∈ ({ triples := (RDFGraph.empty.addAll g.triples).triples,
               bindings := g.bindings } : RDFGraph).triples ↔
          t ∈ g.triples := by
      intro t
      show t ∈ (RDFGraph.empty.addAll g.triples).triples ↔ _
      rw [RDFGraph.mem_addAll]
      simp [RDFGraph.empty]
    have hmk : makeGraphConnected g domain chunkIri =
        (findConnectedComponents g).foldl (hubStep (Term.iri chunkIri))
          ((({ triples := (RDFGraph.empty.addAll g.triples).triples,
               bindings := g.bindings } : RDFGraph).add
            (Term.iri chunkIri, rdfType,
              Term.iri (domain ++ "TextChunk"))).add
            (Term.iri chunkIri, rdfsLabel, Term.lit "Document chunk")) := by
      unfold makeGraphConnected connectViaChunkHub
      rw [if_neg hle]
    rw [hmk]
    have hg1mem : ∀ t : Triple,
        t ∈ ((({ triples := (RDFGraph.empty.addAll g.triples).triples,
                 bindings := g.bindings } : RDFGraph).add
          (Term.iri chunkIri, rdfType,
            Term.iri (domain ++ "TextChunk"))).add
          (Term.iri chunkIri, rdfsLabel,
            Term.lit "Document chunk")).triples ↔
        t ∈ g.triples ∨
        t = (Term.iri chunkIri, rdfType, Term.iri (domain ++ "TextChunk")) ∨
        t = (Term.iri chunkIri, rdfsLabel, Term.lit "Document chunk") := by
      intro t
      rw [RDFGraph.mem_add, RDFGraph.mem_add, hcg]
      tauto
    have hreach := reach_hub_all g (Term.iri chunkIri)
      (Term.iri (domain ++ "TextChunk")) _ (findConnectedComponents g)
      rfl rfl rfl hg1mem
    have hhubent : Term.iri chunkIri ∈ getAllEntities
        ((findConnectedComponents g).foldl (hubStep (Term.iri chunkIri))
          ((({ triples := (RDFGraph.empty.addAll g.triples).triples,
               bindings := g.bindings } : RDFGraph).add
            (Term.iri chunkIri, rdfType,
              Term.iri (domain ++ "TextChunk"))).add
            (Term.iri chunkIri, rdfsLabel, Term.lit "Document chunk"))) := by
      rw [mem_getAllEntities]
      refine ⟨(Term.iri chunkIri, rdfType,
        Term.iri (domain ++ "TextChunk")), ?_, Or.inl ⟨rfl, rfl⟩⟩
      apply hubFold_mono
      exact (hg1mem _).mpr (Or.inr (Or.inl rfl))
    exact fcc_single_of_hub _ (Term.iri chunkIri) hhubent hreach

theorem repair_single_component_witness :
    findConnectedComponents demoC4Graph ≠ [] ∧
    (findConnectedComponents
      (makeGraphConnected demoC4Graph "http://onto/"
        "http://doc/chunk/1")).length = 1 :=
  ⟨by decide, repair_single_component demoC4Graph "http://onto/"
    "http://doc/chunk/1" (by decide)⟩

end Ontocast
